import Mathlib

/-!
Verification of the tweet-hashtag-graph-analysis core:
a shallow embedding of `src/minpq.py` (class `indexedMinPQ`) and
`src/graph.py` (class `TimeWindowGraph`), together with theorems that
settle the spec claims about them.

Modelling conventions:
* Python dicts are modelled as association lists (`List (K × V)`) with
  first-match lookup; insertion conses after erasing the key, which has
  the same lookup semantics as a dict assignment.
* The numpy backing array (`dtype='int'`) is a `List Int` whose length is
  the capacity; index 0 is never written by the code (numpy initialises it
  to 0 and all writes go to indices ≥ 1).  `np.resize` to double the size
  repeats the contents (`l ++ l`), `np.resize` to half the size truncates
  (`l.take`).  Reads use a default of 0; all reads performed by the code
  on well-formed states are in bounds.
* Node identifiers (Python strings/ints with `<`) are modelled as `ℕ`;
  priority values and timestamps (Python ints) as `ℤ`; `heap_size` as `ℕ`
  (the code keeps it non-negative).
* The `while` loops of `_bubble_up` / `_bubble_down` and of
  `_remove_old_links` are written with explicit fuel; the chosen fuel is
  an upper bound on the number of iterations the Python loop can make
  (`_bubble_up` halves its index each pass, `_bubble_down` at least
  increments it while it stays ≤ heap_size, and the eviction loop pops one
  link per pass), so the fueled functions agree with the loops.
* Places where the Python code would raise (`KeyError` on a missing dict
  key, unpacking `None`) are marked in comments; they are unreachable from
  well-formed states and no claim's counterexample goes through them.
-/

namespace TweetGraph

/-! ### Association-list finite maps (model of Python dict) -/

def fmLookup {K V : Type} [DecidableEq K] (k : K) : List (K × V) → Option V
  | [] => none
  | (k', v) :: rest => if k' = k then some v else fmLookup k rest

def fmErase {K V : Type} [DecidableEq K] (k : K) (l : List (K × V)) : List (K × V) :=
  l.filter (fun p => p.1 ≠ k)

def fmInsert {K V : Type} [DecidableEq K] (k : K) (v : V) (l : List (K × V)) : List (K × V) :=
  (k, v) :: fmErase k l

def fmKeysNodup {K V : Type} (l : List (K × V)) : Prop :=
  (l.map Prod.fst).Nodup

section FmLemmas

variable {K V : Type} [DecidableEq K]

@[simp] theorem fmLookup_nil (k : K) : fmLookup (V := V) k [] = none := rfl

theorem fmLookup_cons (k k' : K) (v : V) (l : List (K × V)) :
    fmLookup k ((k', v) :: l) = if k' = k then some v else fmLookup k l := rfl

@[simp] theorem fmLookup_erase_self (k : K) (l : List (K × V)) :
    fmLookup k (fmErase k l) = none := by
  induction l with
  | nil => rfl
  | cons p rest ih =>
    by_cases h : p.1 = k
    · simpa [fmErase, h] using ih
    · simpa [fmErase, fmLookup, h] using ih

theorem fmErase_cons (k : K) (p : K × V) (l : List (K × V)) :
    fmErase k (p :: l) = if p.1 = k then fmErase k l else p :: fmErase k l := by
  by_cases hp : p.1 = k
  · simp [fmErase, hp]
  · simp [fmErase, hp]

theorem fmLookup_erase_ne (k k' : K) (l : List (K × V)) (h : k' ≠ k) :
    fmLookup k' (fmErase k l) = fmLookup k' l := by
  induction l with
  | nil => rfl
  | cons p rest ih =>
    rw [fmErase_cons]
    by_cases hp : p.1 = k
    · have hp' : p.1 ≠ k' := by rw [hp]; exact fun hc => h hc.symm
      rw [if_pos hp, ih, fmLookup_cons, if_neg hp']
    · rw [if_neg hp, fmLookup_cons, fmLookup_cons, ih]

@[simp] theorem fmLookup_insert_self (k : K) (v : V) (l : List (K × V)) :
    fmLookup k (fmInsert k v l) = some v := by
  simp [fmInsert, fmLookup]

theorem fmLookup_insert_ne (k k' : K) (v : V) (l : List (K × V)) (h : k' ≠ k) :
    fmLookup k' (fmInsert k v l) = fmLookup k' l := by
  have : k ≠ k' := fun hc => h hc.symm
  simp [fmInsert, fmLookup, this, fmLookup_erase_ne k k' l h]

theorem fmErase_of_lookup_none (k : K) (l : List (K × V)) (h : fmLookup k l = none) :
    fmErase k l = l := by
  induction l with
  | nil => rfl
  | cons p rest ih =>
    rw [fmLookup_cons] at h
    by_cases hp : p.1 = k
    · rw [if_pos hp] at h; exact absurd h (by simp)
    · rw [if_neg hp] at h
      rw [fmErase_cons, if_neg hp, ih h]

theorem mem_fmErase {k : K} {l : List (K × V)} {p : K × V} (h : p ∈ fmErase k l) :
    p ∈ l ∧ p.1 ≠ k := by
  unfold fmErase at h
  have := List.mem_filter.mp h
  exact ⟨this.1, by simpa using this.2⟩

theorem mem_fmInsert {k : K} {v : V} {l : List (K × V)} {p : K × V}
    (h : p ∈ fmInsert k v l) : p = (k, v) ∨ (p ∈ l ∧ p.1 ≠ k) := by
  rcases List.mem_cons.mp h with h | h
  · exact Or.inl h
  · exact Or.inr (mem_fmErase h)

theorem fmKeysNodup_erase (k : K) {l : List (K × V)} (h : fmKeysNodup l) :
    fmKeysNodup (fmErase k l) := by
  induction l with
  | nil => exact h
  | cons p rest ih =>
    unfold fmKeysNodup at h ⊢
    simp only [List.map_cons, List.nodup_cons] at h
    rw [fmErase_cons]
    by_cases hp : p.1 = k
    · rw [if_pos hp]; exact ih h.2
    · rw [if_neg hp]
      simp only [List.map_cons, List.nodup_cons]
      refine ⟨fun hc => ?_, ih h.2⟩
      rcases List.mem_map.mp hc with ⟨q, hq, hq2⟩
      exact h.1 (List.mem_map.mpr ⟨q, (mem_fmErase hq).1, hq2⟩)

theorem fmKeysNodup_insert (k : K) (v : V) {l : List (K × V)} (h : fmKeysNodup l) :
    fmKeysNodup (fmInsert k v l) := by
  unfold fmKeysNodup fmInsert
  simp only [List.map_cons, List.nodup_cons]
  constructor
  · intro hc
    rcases List.mem_map.mp hc with ⟨q, hq, hq2⟩
    have := mem_fmErase hq
    exact this.2 hq2
  · exact fmKeysNodup_erase k h

theorem fmLookup_eq_some_of_mem {l : List (K × V)} {p : K × V}
    (hn : fmKeysNodup l) (h : p ∈ l) : fmLookup p.1 l = some p.2 := by
  induction l with
  | nil => simp at h
  | cons q rest ih =>
    unfold fmKeysNodup at hn
    simp only [List.map_cons, List.nodup_cons] at hn
    rcases List.mem_cons.mp h with h | h
    · subst h; rw [fmLookup_cons, if_pos rfl]
    · have hne : q.1 ≠ p.1 := by
        intro hc
        exact hn.1 (hc ▸ List.mem_map.mpr ⟨p, h, rfl⟩)
      rw [fmLookup_cons, if_neg hne]
      exact ih hn.2 h

theorem mem_of_fmLookup_eq_some {l : List (K × V)} {k : K} {v : V}
    (h : fmLookup k l = some v) : (k, v) ∈ l := by
  induction l with
  | nil => simp [fmLookup] at h
  | cons q rest ih =>
    rw [fmLookup_cons] at h
    by_cases hq : q.1 = k
    · rw [if_pos hq] at h
      have hv : q.2 = v := by injection h
      have : (k, v) = q := by
        rw [← hq, ← hv]
      rw [this]
      exact List.mem_cons_self _ _
    · rw [if_neg hq] at h
      exact List.mem_cons_of_mem _ (ih h)

end FmLemmas

/-! ### Backing array helpers (numpy int array) -/

def arrGet (l : List Int) (i : ℕ) : Int := (l.get? i).getD 0

theorem arrGet_set_self (l : List Int) (i : ℕ) (v : Int) (h : i < l.length) :
    arrGet (l.set i v) i = v := by
  simp [arrGet, List.getElem?_set_self', h, Option.getD]

theorem arrGet_set_ne (l : List Int) (i j : ℕ) (v : Int) (h : i ≠ j) :
    arrGet (l.set i v) j = arrGet l j := by
  simp [arrGet, List.getElem?_set_ne h]

theorem arrGet_append_left (l l' : List Int) (i : ℕ) (h : i < l.length) :
    arrGet (l ++ l') i = arrGet l i := by
  simp [arrGet, List.getElem?_append_left h]

theorem arrGet_take (l : List Int) (n i : ℕ) (h : i < n) :
    arrGet (l.take n) i = arrGet l i := by
  simp [arrGet, List.getElem?_take_of_lt h]

/-! ### `indexedMinPQ` (src/minpq.py) -/

structure indexedMinPQ (K : Type) where
  _array : List Int
  _heap_size : ℕ
  _index_to_key : List (ℕ × K)
  _key_to_index : List (K × ℕ)

namespace indexedMinPQ

variable {K : Type} [DecidableEq K]

/-- `indexedMinPQ.__init__`: `np.zeros(2)`, empty dicts. -/
def init (K : Type) : indexedMinPQ K := ⟨[0, 0], 0, [], []⟩

/-- `indexedMinPQ._parent` (Python 2 integer division). -/
def _parent (index : ℕ) : ℕ := index / 2

/-- `indexedMinPQ._left`. -/
def _left (index : ℕ) : ℕ := index * 2

/-- `indexedMinPQ._right`. -/
def _right (index : ℕ) : ℕ := index * 2 + 1

/-- `indexedMinPQ._swap`: swap values and keys of two heap slots.
The two dict reads `self._index_to_key[index1/2]` would raise `KeyError`
when absent (never on well-formed states); that fallthrough leaves the
dicts unchanged here. -/
def _swap (pq : indexedMinPQ K) (index1 index2 : ℕ) : indexedMinPQ K :=
  let v1 := arrGet pq._array index1
  let v2 := arrGet pq._array index2
  let a := (pq._array.set index1 v2).set index2 v1
  match fmLookup index1 pq._index_to_key, fmLookup index2 pq._index_to_key with
  | some key1, some key2 =>
      { pq with
        _array := a
        _index_to_key := fmInsert index2 key1 (fmInsert index1 key2 pq._index_to_key)
        _key_to_index := fmInsert key2 index1 (fmInsert key1 index2 pq._key_to_index) }
  | _, _ => { pq with _array := a }

@[simp] theorem _swap_heap_size (pq : indexedMinPQ K) (i j : ℕ) :
    (pq._swap i j)._heap_size = pq._heap_size := by
  unfold _swap
  cases fmLookup i pq._index_to_key <;> cases fmLookup j pq._index_to_key <;> rfl

@[simp] theorem _swap_array_length (pq : indexedMinPQ K) (i j : ℕ) :
    (pq._swap i j)._array.length = pq._array.length := by
  unfold _swap
  cases fmLookup i pq._index_to_key <;> cases fmLookup j pq._index_to_key <;> simp

/-- `indexedMinPQ._bubble_up` as a fueled loop.  Each pass moves the index
to its parent `index / 2 < index`, so starting fuel `index` is an upper
bound on the number of passes; the fueled function equals the Python loop. -/
def _bubble_up_fuel : ℕ → indexedMinPQ K → ℕ → indexedMinPQ K
  | 0, pq, _ => pq
  | fuel + 1, pq, index =>
    if 1 ≤ _parent index ∧ arrGet pq._array index < arrGet pq._array (_parent index) then
      _bubble_up_fuel fuel (pq._swap index (_parent index)) (_parent index)
    else pq

def _bubble_up (pq : indexedMinPQ K) (index : ℕ) : indexedMinPQ K :=
  _bubble_up_fuel index pq index

/-- `indexedMinPQ._bubble_down` as a fueled loop.  Each pass moves the
index to a child `> index` while it stays ≤ `heap_size`, so starting fuel
`heap_size + 1` is an upper bound on the number of passes.  The loop guard
`self._left(index) <= self._heap_size` is combined with `1 ≤ index`
(callers only pass indices ≥ 1; on index 0 the Python loop would not
terminate). -/
def _bubble_down_fuel : ℕ → indexedMinPQ K → ℕ → indexedMinPQ K
  | 0, pq, _ => pq
  | fuel + 1, pq, index =>
    if 1 ≤ index ∧ _left index ≤ pq._heap_size then
      let temp :=
        if _left index < pq._heap_size ∧
            arrGet pq._array (_right index) < arrGet pq._array (_left index) then
          _left index + 1
        else _left index
      if arrGet pq._array index < arrGet pq._array temp then pq
      else _bubble_down_fuel fuel (pq._swap index temp) temp
    else pq

def _bubble_down (pq : indexedMinPQ K) (index : ℕ) : indexedMinPQ K :=
  _bubble_down_fuel (pq._heap_size + 1) pq index

/-- `indexedMinPQ.add`. -/
def add (pq : indexedMinPQ K) (key : K) (value : Int) : indexedMinPQ K × Bool :=
  if (fmLookup key pq._key_to_index).isSome then (pq, false)
  else
    let pq1 : indexedMinPQ K :=
      { pq with
        _array := pq._array.set (pq._heap_size + 1) value
        _heap_size := pq._heap_size + 1 }
    let pq2 : indexedMinPQ K :=
      { pq1 with
        _index_to_key := fmInsert pq1._heap_size key pq1._index_to_key
        _key_to_index := fmInsert key pq1._heap_size pq1._key_to_index }
    let pq3 := pq2._bubble_up pq2._heap_size
    let pq4 :=
      if pq3._heap_size + 1 = pq3._array.length then
        { pq3 with _array := pq3._array ++ pq3._array }
      else pq3
    (pq4, true)

/-- `indexedMinPQ.remove`.  The dict delete
`del self._key_to_index[self._index_to_key[self._heap_size]]` raises
`KeyError` when the inner lookup fails (never on well-formed states); the
`none` branch here deletes only the `index_to_key` entry. -/
def remove (pq : indexedMinPQ K) (key : K) : indexedMinPQ K × Bool :=
  match fmLookup key pq._key_to_index with
  | none => (pq, false)
  | some index =>
    let pq1 := pq._swap pq._heap_size index
    let pq2 : indexedMinPQ K :=
      match fmLookup pq1._heap_size pq1._index_to_key with
      | some klast =>
          { pq1 with
            _key_to_index := fmErase klast pq1._key_to_index
            _index_to_key := fmErase pq1._heap_size pq1._index_to_key }
      | none => { pq1 with _index_to_key := fmErase pq1._heap_size pq1._index_to_key }
    let pq3 : indexedMinPQ K := { pq2 with _heap_size := pq2._heap_size - 1 }
    let pq4 := pq3._bubble_down index
    let pq5 :=
      if pq4._heap_size ≤ pq4._array.length / 4 ∧ 3 < pq4._heap_size then
        { pq4 with _array := pq4._array.take (pq4._array.length / 2) }
      else pq4
    (pq5, true)

/-- `indexedMinPQ.update`. -/
def update (pq : indexedMinPQ K) (key : K) (value : Int) : indexedMinPQ K × Bool :=
  match fmLookup key pq._key_to_index with
  | none => (pq, false)
  | some index =>
    let pq1 : indexedMinPQ K := { pq with _array := pq._array.set index value }
    let pq2 :=
      if value < arrGet pq1._array (_parent index) then pq1._bubble_up index
      else pq1._bubble_down index
    (pq2, true)

/-- `indexedMinPQ.value`: `None` when the key is absent. -/
def value (pq : indexedMinPQ K) (key : K) : Option Int :=
  (fmLookup key pq._key_to_index).map (fun index => arrGet pq._array index)

/-- `indexedMinPQ.peek_min`: `(None, None)` on an empty heap.  The dict
read `self._index_to_key[1]` raises on ill-formed states; modelled as
`none`. -/
def peek_min (pq : indexedMinPQ K) : Option (K × Int) :=
  if pq._heap_size = 0 then none
  else
    match fmLookup 1 pq._index_to_key with
    | some key => some (key, arrGet pq._array 1)
    | none => none

/-- `indexedMinPQ.pop_min`. -/
def pop_min (pq : indexedMinPQ K) : indexedMinPQ K × Option (K × Int) :=
  if pq._heap_size = 0 then (pq, none)
  else
    match fmLookup 1 pq._index_to_key with
    | some key => ((pq.remove key).1, some (key, arrGet pq._array 1))
    | none => (pq, none)

/-- `indexedMinPQ.size`. -/
def size (pq : indexedMinPQ K) : ℕ := pq._heap_size

/-! #### Structural well-formedness of the queue

`PQMapsWF` says the two dictionaries are mutually inverse between the
stored keys and the occupied heap slots `1 .. heap_size`; `PQWF` adds the
capacity invariant (claim C10).  Heap *order* is deliberately not part of
the invariant: the code does not maintain it (claim C1). -/

def PQMapsWF (pq : indexedMinPQ K) : Prop :=
  fmKeysNodup pq._key_to_index ∧
  fmKeysNodup pq._index_to_key ∧
  (∀ p ∈ pq._key_to_index,
      fmLookup p.2 pq._index_to_key = some p.1 ∧ 1 ≤ p.2 ∧ p.2 ≤ pq._heap_size) ∧
  (∀ p ∈ pq._index_to_key, fmLookup p.2 pq._key_to_index = some p.1) ∧
  (∀ i ∈ List.range pq._heap_size, (fmLookup (i + 1) pq._index_to_key).isSome)

def PQWF (pq : indexedMinPQ K) : Prop :=
  PQMapsWF pq ∧ pq._heap_size + 2 ≤ pq._array.length

instance (pq : indexedMinPQ K) : Decidable (PQMapsWF pq) := by
  unfold PQMapsWF fmKeysNodup; infer_instance

instance (pq : indexedMinPQ K) : Decidable (PQWF pq) := by
  unfold PQWF; infer_instance

theorem PQMapsWF.k2i_spec {pq : indexedMinPQ K} (h : PQMapsWF pq) {k : K} {i : ℕ}
    (hl : fmLookup k pq._key_to_index = some i) :
    fmLookup i pq._index_to_key = some k ∧ 1 ≤ i ∧ i ≤ pq._heap_size :=
  h.2.2.1 (k, i) (mem_of_fmLookup_eq_some hl)

theorem PQMapsWF.i2k_spec {pq : indexedMinPQ K} (h : PQMapsWF pq) {i : ℕ} {k : K}
    (hl : fmLookup i pq._index_to_key = some k) :
    fmLookup k pq._key_to_index = some i :=
  h.2.2.2.1 (i, k) (mem_of_fmLookup_eq_some hl)

theorem PQMapsWF.surj {pq : indexedMinPQ K} (h : PQMapsWF pq) {i : ℕ}
    (h1 : 1 ≤ i) (h2 : i ≤ pq._heap_size) :
    ∃ k, fmLookup i pq._index_to_key = some k := by
  have := h.2.2.2.2 (i - 1) (List.mem_range.mpr (by omega))
  rw [Nat.sub_add_cancel h1] at this
  exact Option.isSome_iff_exists.mp this

theorem _swap_eq (pq : indexedMinPQ K) (i j : ℕ) {ki kj : K}
    (hki : fmLookup i pq._index_to_key = some ki)
    (hkj : fmLookup j pq._index_to_key = some kj) :
    pq._swap i j =
      { pq with
        _array := (pq._array.set i (arrGet pq._array j)).set j (arrGet pq._array i)
        _index_to_key := fmInsert j ki (fmInsert i kj pq._index_to_key)
        _key_to_index := fmInsert kj i (fmInsert ki j pq._key_to_index) } := by
  unfold _swap
  rw [hki, hkj]

theorem _swap_spec (pq : indexedMinPQ K) (i j : ℕ)
    (hwf : PQMapsWF pq) (hcap : pq._heap_size + 1 ≤ pq._array.length)
    (hi1 : 1 ≤ i) (hi2 : i ≤ pq._heap_size)
    (hj1 : 1 ≤ j) (hj2 : j ≤ pq._heap_size) :
    PQMapsWF (pq._swap i j) ∧ (∀ k, (pq._swap i j).value k = pq.value k) := by
  obtain ⟨ki, hki⟩ := hwf.surj hi1 hi2
  obtain ⟨kj, hkj⟩ := hwf.surj hj1 hj2
  have hkik2i : fmLookup ki pq._key_to_index = some i := hwf.i2k_spec hki
  have hkjk2i : fmLookup kj pq._key_to_index = some j := hwf.i2k_spec hkj
  have hkeq : i = j → ki = kj := by
    intro h; rw [h] at hki; rw [hki] at hkj; injection hkj
  have hkeq' : ki = kj → i = j := by
    intro h; rw [h] at hkik2i; rw [hkik2i] at hkjk2i; injection hkjk2i
  have hilen : i < pq._array.length := by omega
  have hjlen : j < pq._array.length := by omega
  rw [_swap_eq pq i j hki hkj]
  set a' := (pq._array.set i (arrGet pq._array j)).set j (arrGet pq._array i) with ha'
  set i2k' := fmInsert j ki (fmInsert i kj pq._index_to_key) with hi2k'
  set k2i' := fmInsert kj i (fmInsert ki j pq._key_to_index) with hk2i'
  have L1 : ∀ x, fmLookup x i2k' =
      if x = j then some ki else if x = i then some kj
      else fmLookup x pq._index_to_key := by
    intro x
    by_cases h1 : x = j
    · subst h1; simp [hi2k']
    · rw [hi2k', fmLookup_insert_ne _ _ _ _ h1, if_neg h1]
      by_cases h2 : x = i
      · subst h2; simp
      · rw [fmLookup_insert_ne _ _ _ _ h2, if_neg h2]
  have L2 : ∀ x, fmLookup x k2i' =
      if x = kj then some i else if x = ki then some j
      else fmLookup x pq._key_to_index := by
    intro x
    by_cases h1 : x = kj
    · subst h1; simp [hk2i']
    · rw [hk2i', fmLookup_insert_ne _ _ _ _ h1, if_neg h1]
      by_cases h2 : x = ki
      · subst h2; simp
      · rw [fmLookup_insert_ne _ _ _ _ h2, if_neg h2]
  have L3 : ∀ x, arrGet a' x =
      if x = j then arrGet pq._array i else if x = i then arrGet pq._array j
      else arrGet pq._array x := by
    intro x
    by_cases h1 : x = j
    · subst h1
      rw [if_pos rfl, ha', arrGet_set_self _ _ _ (by simpa using hjlen)]
    · rw [ha', arrGet_set_ne _ _ _ _ (fun hc => h1 hc.symm), if_neg h1]
      by_cases h2 : x = i
      · subst h2; rw [if_pos rfl, arrGet_set_self _ _ _ hilen]
      · rw [arrGet_set_ne _ _ _ _ (fun hc => h2 hc.symm), if_neg h2]
  obtain ⟨hnk, hni, hC, hD, hE⟩ := hwf
  refine ⟨⟨?_, ?_, ?_, ?_, ?_⟩, ?_⟩
  · exact fmKeysNodup_insert _ _ (fmKeysNodup_insert _ _ hnk)
  · exact fmKeysNodup_insert _ _ (fmKeysNodup_insert _ _ hni)
  · -- key → index direction
    intro p hp
    rcases mem_fmInsert hp with h | ⟨hp, hpne⟩
    · -- p = (kj, i)
      subst h
      refine ⟨?_, hi1, hi2⟩
      dsimp only
      rw [L1]
      by_cases h1 : i = j
      · rw [if_pos h1]; rw [hkeq h1]
      · rw [if_neg h1]
        simp
    · rcases mem_fmInsert hp with h | ⟨hp, hpne'⟩
      · -- p = (ki, j)
        subst h
        refine ⟨?_, hj1, hj2⟩
        dsimp only
        rw [L1, if_pos rfl]
      · -- old entry, key ∉ {ki, kj}
        obtain ⟨hpi2k, hpb1, hpb2⟩ := hC p hp
        have hne_i : p.2 ≠ i := by
          intro hc; rw [hc, hki] at hpi2k
          exact hpne' (by injection hpi2k with h; exact h.symm)
        have hne_j : p.2 ≠ j := by
          intro hc; rw [hc, hkj] at hpi2k
          exact hpne (by injection hpi2k with h; exact h.symm)
        rw [L1, if_neg hne_j, if_neg hne_i]
        exact ⟨hpi2k, hpb1, hpb2⟩
  · -- index → key direction
    intro p hp
    rcases mem_fmInsert hp with h | ⟨hp, hpne⟩
    · -- p = (j, ki)
      subst h
      dsimp only
      rw [L2]
      by_cases h1 : ki = kj
      · rw [if_pos h1, hkeq' h1]
      · rw [if_neg h1, if_pos rfl]
    · rcases mem_fmInsert hp with h | ⟨hp, hpne'⟩
      · -- p = (i, kj)
        subst h
        dsimp only
        rw [L2, if_pos rfl]
      · obtain hpk2i := hD p hp
        have hne_ki : p.2 ≠ ki := by
          intro hc; rw [hc, hkik2i] at hpk2i
          exact hpne' (by injection hpk2i with h; exact h.symm)
        have hne_kj : p.2 ≠ kj := by
          intro hc; rw [hc, hkjk2i] at hpk2i
          exact hpne (by injection hpk2i with h; exact h.symm)
        rw [L2, if_neg hne_kj, if_neg hne_ki]
        exact hpk2i
  · -- occupied slots stay occupied
    intro x hx
    rw [L1]
    by_cases h1 : x + 1 = j
    · simp [h1]
    · rw [if_neg h1]
      by_cases h2 : x + 1 = i
      · simp [h2]
      · rw [if_neg h2]
        exact hE x hx
  · -- stored values are untouched
    intro k
    unfold value
    rw [L2]
    by_cases h1 : k = kj
    · subst h1
      rw [if_pos rfl, hkjk2i]
      simp only [Option.map_some']
      rw [L3]
      by_cases h2 : i = j
      · rw [if_pos h2, h2]
      · rw [if_neg h2, if_pos rfl]
    · rw [if_neg h1]
      by_cases h2 : k = ki
      · subst h2
        rw [if_pos rfl, hkik2i]
        simp only [Option.map_some']
        rw [L3, if_pos rfl]
      · rw [if_neg h2]
        cases hlk : fmLookup k pq._key_to_index with
        | none => simp
        | some x =>
          simp only [Option.map_some']
          have hx := hC (k, x) (mem_of_fmLookup_eq_some hlk)
          have hne_i : x ≠ i := by
            intro hc
            rw [hc, hki] at hx
            exact h2 (by injection hx.1 with h; exact h.symm)
          have hne_j : x ≠ j := by
            intro hc
            rw [hc, hkj] at hx
            exact h1 (by injection hx.1 with h; exact h.symm)
          rw [L3, if_neg hne_j, if_neg hne_i]

theorem _bubble_up_fuel_spec :
    ∀ (fuel : ℕ) (pq : indexedMinPQ K) (i : ℕ),
      PQMapsWF pq → pq._heap_size + 1 ≤ pq._array.length → i ≤ pq._heap_size →
      PQMapsWF (_bubble_up_fuel fuel pq i) ∧
      (_bubble_up_fuel fuel pq i)._heap_size = pq._heap_size ∧
      (_bubble_up_fuel fuel pq i)._array.length = pq._array.length ∧
      (∀ k, (_bubble_up_fuel fuel pq i).value k = pq.value k) := by
  intro fuel
  induction fuel with
  | zero => intro pq i hwf _ _; exact ⟨hwf, rfl, rfl, fun _ => rfl⟩
  | succ fuel ih =>
    intro pq i hwf hcap hle
    unfold _bubble_up_fuel
    by_cases hcond : 1 ≤ _parent i ∧
        arrGet pq._array i < arrGet pq._array (_parent i)
    · rw [if_pos hcond]
      have hp1 : 1 ≤ _parent i := hcond.1
      have hi1 : 1 ≤ i := by unfold _parent at hp1; omega
      have hple : _parent i ≤ pq._heap_size := by
        unfold _parent at *; omega
      obtain ⟨hwf', hval'⟩ :=
        _swap_spec pq i (_parent i) hwf hcap hi1 hle hp1 hple
      obtain ⟨h1, h2, h3, h4⟩ := ih (pq._swap i (_parent i)) (_parent i) hwf'
        (by rw [_swap_heap_size, _swap_array_length]; exact hcap)
        (by rw [_swap_heap_size]; exact hple)
      refine ⟨h1, ?_, ?_, ?_⟩
      · rw [h2, _swap_heap_size]
      · rw [h3, _swap_array_length]
      · intro k; rw [h4 k, hval' k]
    · rw [if_neg hcond]
      exact ⟨hwf, rfl, rfl, fun _ => rfl⟩

theorem _bubble_up_spec (pq : indexedMinPQ K) (i : ℕ)
    (hwf : PQMapsWF pq) (hcap : pq._heap_size + 1 ≤ pq._array.length)
    (hle : i ≤ pq._heap_size) :
    PQMapsWF (pq._bubble_up i) ∧
    (pq._bubble_up i)._heap_size = pq._heap_size ∧
    (pq._bubble_up i)._array.length = pq._array.length ∧
    (∀ k, (pq._bubble_up i).value k = pq.value k) :=
  _bubble_up_fuel_spec i pq i hwf hcap hle

theorem _bubble_down_fuel_spec :
    ∀ (fuel : ℕ) (pq : indexedMinPQ K) (i : ℕ),
      PQMapsWF pq → pq._heap_size + 1 ≤ pq._array.length → 1 ≤ i →
      PQMapsWF (_bubble_down_fuel fuel pq i) ∧
      (_bubble_down_fuel fuel pq i)._heap_size = pq._heap_size ∧
      (_bubble_down_fuel fuel pq i)._array.length = pq._array.length ∧
      (∀ k, (_bubble_down_fuel fuel pq i).value k = pq.value k) := by
  intro fuel
  induction fuel with
  | zero => intro pq i hwf _ _; exact ⟨hwf, rfl, rfl, fun _ => rfl⟩
  | succ fuel ih =>
    intro pq i hwf hcap hi1
    unfold _bubble_down_fuel
    by_cases hcond : 1 ≤ i ∧ _left i ≤ pq._heap_size
    · rw [if_pos hcond]
      have hileft : _left i ≤ pq._heap_size := hcond.2
      have hile : i ≤ pq._heap_size := by unfold _left at hileft; omega
      set temp :=
        if _left i < pq._heap_size ∧
            arrGet pq._array (_right i) < arrGet pq._array (_left i) then
          _left i + 1
        else _left i with htemp
      have htemp1 : 1 ≤ temp := by
        rw [htemp]; unfold _left; split <;> omega
      have htemple : temp ≤ pq._heap_size := by
        rw [htemp]; unfold _left _right at *; split <;> omega
      by_cases hstop : arrGet pq._array i < arrGet pq._array temp
      · rw [if_pos hstop]
        exact ⟨hwf, rfl, rfl, fun _ => rfl⟩
      · rw [if_neg hstop]
        obtain ⟨hwf', hval'⟩ :=
          _swap_spec pq i temp hwf hcap hi1 hile htemp1 htemple
        obtain ⟨h1, h2, h3, h4⟩ := ih (pq._swap i temp) temp hwf'
          (by rw [_swap_heap_size, _swap_array_length]; exact hcap)
          htemp1
        refine ⟨h1, ?_, ?_, ?_⟩
        · rw [h2, _swap_heap_size]
        · rw [h3, _swap_array_length]
        · intro k; rw [h4 k, hval' k]
    · rw [if_neg hcond]
      exact ⟨hwf, rfl, rfl, fun _ => rfl⟩

theorem _bubble_down_spec (pq : indexedMinPQ K) (i : ℕ)
    (hwf : PQMapsWF pq) (hcap : pq._heap_size + 1 ≤ pq._array.length)
    (hi1 : 1 ≤ i) :
    PQMapsWF (pq._bubble_down i) ∧
    (pq._bubble_down i)._heap_size = pq._heap_size ∧
    (pq._bubble_down i)._array.length = pq._array.length ∧
    (∀ k, (pq._bubble_down i).value k = pq.value k) :=
  _bubble_down_fuel_spec (pq._heap_size + 1) pq i hwf hcap hi1

theorem value_eq_none_iff (pq : indexedMinPQ K) (k : K) :
    pq.value k = none ↔ fmLookup k pq._key_to_index = none := by
  unfold value
  cases fmLookup k pq._key_to_index <;> simp

/-- Changing only the backing array does not affect the dictionaries'
well-formedness. -/
theorem PQMapsWF_set_array (pq : indexedMinPQ K) (a : List Int)
    (h : PQMapsWF pq) : PQMapsWF { pq with _array := a } := h

/-- Doubling the backing array (`np.resize` repeats the data) preserves
every stored value. -/
theorem value_grow (pq : indexedMinPQ K) (hwf : PQMapsWF pq)
    (hcap : pq._heap_size < pq._array.length) (k : K) :
    ({ pq with _array := pq._array ++ pq._array } : indexedMinPQ K).value k
      = pq.value k := by
  unfold value
  cases hlk : fmLookup k pq._key_to_index with
  | none => rfl
  | some i =>
    simp only [Option.map_some']
    obtain ⟨_, _, hb⟩ := hwf.k2i_spec hlk
    show some (arrGet (pq._array ++ pq._array) i) = some (arrGet pq._array i)
    rw [arrGet_append_left _ _ _ (by omega)]

/-- Truncating the backing array above every occupied slot preserves every
stored value. -/
theorem value_shrink (pq : indexedMinPQ K) (hwf : PQMapsWF pq) (n : ℕ)
    (hb : pq._heap_size < n) (k : K) :
    ({ pq with _array := pq._array.take n } : indexedMinPQ K).value k
      = pq.value k := by
  unfold value
  cases hlk : fmLookup k pq._key_to_index with
  | none => rfl
  | some i =>
    simp only [Option.map_some']
    obtain ⟨_, _, hbi⟩ := hwf.k2i_spec hlk
    show some (arrGet (pq._array.take n) i) = some (arrGet pq._array i)
    rw [arrGet_take _ _ _ (by omega)]

theorem add_of_mem (pq : indexedMinPQ K) (key : K) (v : Int)
    (h : (fmLookup key pq._key_to_index).isSome) : pq.add key v = (pq, false) := by
  unfold add
  rw [if_pos h]

theorem add_spec (pq : indexedMinPQ K) (key : K) (v : Int)
    (hwf : PQWF pq) (habs : fmLookup key pq._key_to_index = none) :
    (pq.add key v).2 = true ∧
    PQWF (pq.add key v).1 ∧
    (pq.add key v).1._heap_size = pq._heap_size + 1 ∧
    (pq.add key v).1.value key = some v ∧
    (∀ k, k ≠ key → (pq.add key v).1.value k = pq.value k) := by
  obtain ⟨⟨hnk, hni, hC, hD, hE⟩, hcap⟩ := hwf
  set pq2 : indexedMinPQ K :=
    ⟨pq._array.set (pq._heap_size + 1) v, pq._heap_size + 1,
     fmInsert (pq._heap_size + 1) key pq._index_to_key,
     fmInsert key (pq._heap_size + 1) pq._key_to_index⟩ with hpq2
  have hadd : pq.add key v =
      (if (pq2._bubble_up (pq._heap_size + 1))._heap_size + 1
            = (pq2._bubble_up (pq._heap_size + 1))._array.length
        then { pq2._bubble_up (pq._heap_size + 1) with
                _array := (pq2._bubble_up (pq._heap_size + 1))._array
                            ++ (pq2._bubble_up (pq._heap_size + 1))._array }
        else pq2._bubble_up (pq._heap_size + 1), true) := by
    unfold add
    rw [habs]
    rfl
  have hhs2 : pq2._heap_size = pq._heap_size + 1 := rfl
  have hlen2 : pq2._array.length = pq._array.length := by
    show (pq._array.set (pq._heap_size + 1) v).length = pq._array.length
    rw [List.length_set]
  have hwf2 : PQMapsWF pq2 := by
    refine ⟨fmKeysNodup_insert _ _ hnk, fmKeysNodup_insert _ _ hni, ?_, ?_, ?_⟩
    · intro p hp
      rcases mem_fmInsert hp with h | ⟨hp, hpne⟩
      · subst h
        refine ⟨?_, by dsimp only; omega, by dsimp only; omega⟩
        dsimp only
        exact fmLookup_insert_self _ _ _
      · obtain ⟨h1, h2, h3⟩ := hC p hp
        refine ⟨?_, h2, ?_⟩
        · show fmLookup p.2 (fmInsert (pq._heap_size + 1) key pq._index_to_key)
              = some p.1
          rw [fmLookup_insert_ne _ _ _ _ (by omega : p.2 ≠ pq._heap_size + 1)]
          exact h1
        · show p.2 ≤ pq._heap_size + 1
          omega
    · intro p hp
      rcases mem_fmInsert hp with h | ⟨hp, hpne⟩
      · subst h
        dsimp only
        exact fmLookup_insert_self _ _ _
      · have h1 := hD p hp
        have hne : p.2 ≠ key := by
          intro hc; rw [hc, habs] at h1; exact absurd h1 (by simp)
        show fmLookup p.2 (fmInsert key (pq._heap_size + 1) pq._key_to_index)
            = some p.1
        rw [fmLookup_insert_ne _ _ _ _ hne]
        exact h1
    · intro x hx
      rw [hhs2, List.mem_range] at hx
      show (fmLookup (x + 1) (fmInsert (pq._heap_size + 1) key pq._index_to_key)).isSome
      by_cases h1 : x + 1 = pq._heap_size + 1
      · rw [h1]; simp
      · rw [fmLookup_insert_ne _ _ _ _ h1]
        exact hE x (List.mem_range.mpr (by omega))
  have hcap2 : pq2._heap_size + 1 ≤ pq2._array.length := by
    rw [hhs2, hlen2]
    omega
  have hvkey2 : pq2.value key = some v := by
    unfold value
    show (fmLookup key (fmInsert key (pq._heap_size + 1) pq._key_to_index)).map
        (fun index => arrGet (pq._array.set (pq._heap_size + 1) v) index) = some v
    rw [fmLookup_insert_self]
    simp only [Option.map_some']
    rw [arrGet_set_self _ _ _ (by omega)]
  have hvother2 : ∀ k, k ≠ key → pq2.value k = pq.value k := by
    intro k hk
    unfold value
    show (fmLookup k (fmInsert key (pq._heap_size + 1) pq._key_to_index)).map
        (fun index => arrGet (pq._array.set (pq._heap_size + 1) v) index)
      = (fmLookup k pq._key_to_index).map (fun index => arrGet pq._array index)
    rw [fmLookup_insert_ne _ _ _ _ hk]
    cases hlk : fmLookup k pq._key_to_index with
    | none => rfl
    | some x =>
      simp only [Option.map_some']
      obtain ⟨_, _, hb⟩ := hC (k, x) (mem_of_fmLookup_eq_some hlk)
      simp only at hb
      rw [arrGet_set_ne _ _ _ _ (by omega)]
  obtain ⟨hwf3, hhs3, hlen3, hval3⟩ :=
    _bubble_up_spec pq2 (pq._heap_size + 1) hwf2 hcap2 (le_of_eq hhs2.symm)
  set pq3 := pq2._bubble_up (pq._heap_size + 1) with hpq3
  rw [hhs2] at hhs3
  rw [hlen2] at hlen3
  rw [hadd]
  by_cases hdbl : pq3._heap_size + 1 = pq3._array.length
  · rw [if_pos hdbl]
    have hge : pq3._heap_size < pq3._array.length := by omega
    refine ⟨rfl, ⟨PQMapsWF_set_array _ _ hwf3, ?_⟩, ?_, ?_, ?_⟩
    · show pq3._heap_size + 2 ≤ (pq3._array ++ pq3._array).length
      rw [List.length_append]
      omega
    · show pq3._heap_size = pq._heap_size + 1
      exact hhs3
    · show ({ pq3 with _array := pq3._array ++ pq3._array } :
          indexedMinPQ K).value key = some v
      rw [value_grow pq3 hwf3 hge key, hval3 key, hvkey2]
    · intro k hk
      show ({ pq3 with _array := pq3._array ++ pq3._array } :
          indexedMinPQ K).value k = pq.value k
      rw [value_grow pq3 hwf3 hge k, hval3 k, hvother2 k hk]
  · rw [if_neg hdbl]
    refine ⟨rfl, ⟨hwf3, ?_⟩, hhs3, ?_, ?_⟩
    · show pq3._heap_size + 2 ≤ pq3._array.length
      omega
    · show pq3.value key = some v
      rw [hval3 key, hvkey2]
    · intro k hk
      show pq3.value k = pq.value k
      rw [hval3 k, hvother2 k hk]

theorem remove_of_not_mem (pq : indexedMinPQ K) (key : K)
    (h : fmLookup key pq._key_to_index = none) : pq.remove key = (pq, false) := by
  unfold remove
  rw [h]

theorem remove_spec (pq : indexedMinPQ K) (key : K) (index : ℕ)
    (hwf : PQWF pq) (hpres : fmLookup key pq._key_to_index = some index) :
    (pq.remove key).2 = true ∧
    PQWF (pq.remove key).1 ∧
    (pq.remove key).1._heap_size = pq._heap_size - 1 ∧
    (pq.remove key).1.value key = none ∧
    (∀ k, k ≠ key → (pq.remove key).1.value k = pq.value k) := by
  obtain ⟨hwfm, hcap⟩ := hwf
  obtain ⟨hki2k, hib1, hib2⟩ := hwfm.k2i_spec hpres
  have hhs1 : 1 ≤ pq._heap_size := le_trans hib1 hib2
  obtain ⟨kh, hkh⟩ := hwfm.surj hhs1 (le_refl _)
  obtain ⟨hwf1, hval1⟩ :=
    _swap_spec pq pq._heap_size index hwfm (by omega) hhs1 (le_refl _) hib1 hib2
  have hlast : fmLookup (pq._swap pq._heap_size index)._heap_size
      (pq._swap pq._heap_size index)._index_to_key = some key := by
    rw [_swap_heap_size, _swap_eq pq pq._heap_size index hkh hki2k]
    show fmLookup pq._heap_size
        (fmInsert index kh (fmInsert pq._heap_size key pq._index_to_key)) = some key
    by_cases h : index = pq._heap_size
    · subst h
      rw [hkh] at hki2k
      have : kh = key := by injection hki2k
      rw [fmLookup_insert_self, this]
    · rw [fmLookup_insert_ne _ _ _ _ (fun hc => h hc.symm), fmLookup_insert_self]
  have hkey1 : fmLookup key (pq._swap pq._heap_size index)._key_to_index
      = some (pq._swap pq._heap_size index)._heap_size := hwf1.i2k_spec hlast
  have hhs1' : (pq._swap pq._heap_size index)._heap_size = pq._heap_size :=
    _swap_heap_size pq pq._heap_size index
  have hlen1 : (pq._swap pq._heap_size index)._array.length = pq._array.length :=
    _swap_array_length pq pq._heap_size index
  set pq1 := pq._swap pq._heap_size index with hpq1
  set pq3 : indexedMinPQ K :=
    ⟨pq1._array, pq1._heap_size - 1,
     fmErase pq1._heap_size pq1._index_to_key,
     fmErase key pq1._key_to_index⟩ with hpq3
  have hrem : pq.remove key =
      (if (pq3._bubble_down index)._heap_size
            ≤ (pq3._bubble_down index)._array.length / 4 ∧
          3 < (pq3._bubble_down index)._heap_size
        then { pq3._bubble_down index with
                _array := (pq3._bubble_down index)._array.take
                            ((pq3._bubble_down index)._array.length / 2) }
        else pq3._bubble_down index, true) := by
    unfold remove
    rw [hpres]
    dsimp only
    rw [hlast]
  -- well-formedness of the truncated state
  have hwf3 : PQMapsWF pq3 := by
    obtain ⟨hnk1, hni1, hC1, hD1, hE1⟩ := hwf1
    refine ⟨fmKeysNodup_erase _ hnk1, fmKeysNodup_erase _ hni1, ?_, ?_, ?_⟩
    · intro p hp
      obtain ⟨hp, hpne⟩ := mem_fmErase hp
      obtain ⟨h1, h2, h3⟩ := hC1 p hp
      have hne : p.2 ≠ pq1._heap_size := by
        intro hc
        rw [hc, hlast] at h1
        exact hpne (by injection h1 with h; exact h.symm)
      refine ⟨?_, h2, ?_⟩
      · show fmLookup p.2 (fmErase pq1._heap_size pq1._index_to_key) = some p.1
        rw [fmLookup_erase_ne _ _ _ hne]
        exact h1
      · show p.2 ≤ pq1._heap_size - 1
        omega
    · intro p hp
      obtain ⟨hp, hpne⟩ := mem_fmErase hp
      have h1 := hD1 p hp
      have hne : p.2 ≠ key := by
        intro hc
        rw [hc, hkey1] at h1
        exact hpne (by injection h1 with h; exact h.symm)
      show fmLookup p.2 (fmErase key pq1._key_to_index) = some p.1
      rw [fmLookup_erase_ne _ _ _ hne]
      exact h1
    · intro x hx
      rw [List.mem_range] at hx
      show (fmLookup (x + 1) (fmErase pq1._heap_size pq1._index_to_key)).isSome
      have hxb : x + 1 ≠ pq1._heap_size := by
        show x + 1 ≠ pq1._heap_size
        have : x < pq1._heap_size - 1 := hx
        omega
      rw [fmLookup_erase_ne _ _ _ hxb]
      exact hE1 x (List.mem_range.mpr (by have : x < pq1._heap_size - 1 := hx; omega))
  have hv3key : pq3.value key = none := by
    unfold value
    show (fmLookup key (fmErase key pq1._key_to_index)).map
        (fun index => arrGet pq1._array index) = none
    rw [fmLookup_erase_self]
    rfl
  have hv3other : ∀ k, k ≠ key → pq3.value k = pq.value k := by
    intro k hk
    unfold value
    show (fmLookup k (fmErase key pq1._key_to_index)).map
        (fun index => arrGet pq1._array index)
      = (fmLookup k pq._key_to_index).map (fun index => arrGet pq._array index)
    rw [fmLookup_erase_ne _ _ _ hk]
    exact hval1 k
  have hcap3 : pq3._heap_size + 1 ≤ pq3._array.length := by
    show pq1._heap_size - 1 + 1 ≤ pq1._array.length
    rw [hhs1', hlen1]
    omega
  obtain ⟨hwf4, hhs4, hlen4, hval4⟩ :=
    _bubble_down_spec pq3 index hwf3 hcap3 hib1
  have hhs4' : (pq3._bubble_down index)._heap_size = pq._heap_size - 1 := by
    rw [hhs4]
    show pq1._heap_size - 1 = pq._heap_size - 1
    rw [hhs1']
  have hlen4' : (pq3._bubble_down index)._array.length = pq._array.length := by
    rw [hlen4]
    show pq1._array.length = pq._array.length
    exact hlen1
  rw [hrem]
  set pq4 := pq3._bubble_down index with hpq4
  by_cases hshr : pq4._heap_size ≤ pq4._array.length / 4 ∧ 3 < pq4._heap_size
  · rw [if_pos hshr]
    obtain ⟨hs1, hs2⟩ := hshr
    have hlt : pq4._heap_size < pq4._array.length / 2 := by omega
    refine ⟨rfl, ⟨PQMapsWF_set_array _ _ hwf4, ?_⟩, ?_, ?_, ?_⟩
    · show pq4._heap_size + 2 ≤ (pq4._array.take (pq4._array.length / 2)).length
      rw [List.length_take]
      omega
    · exact hhs4'
    · show ({ pq4 with _array := pq4._array.take (pq4._array.length / 2) } :
          indexedMinPQ K).value key = none
      rw [value_shrink pq4 hwf4 _ hlt key, hval4 key, hv3key]
    · intro k hk
      show ({ pq4 with _array := pq4._array.take (pq4._array.length / 2) } :
          indexedMinPQ K).value k = pq.value k
      rw [value_shrink pq4 hwf4 _ hlt k, hval4 k, hv3other k hk]
  · rw [if_neg hshr]
    refine ⟨rfl, ⟨hwf4, ?_⟩, hhs4', ?_, ?_⟩
    · show pq4._heap_size + 2 ≤ pq4._array.length
      rw [hhs4', hlen4']
      omega
    · show pq4.value key = none
      rw [hval4 key, hv3key]
    · intro k hk
      show pq4.value k = pq.value k
      rw [hval4 k, hv3other k hk]

theorem update_of_not_mem (pq : indexedMinPQ K) (key : K) (v : Int)
    (h : fmLookup key pq._key_to_index = none) : pq.update key v = (pq, false) := by
  unfold update
  rw [h]

theorem update_spec (pq : indexedMinPQ K) (key : K) (v : Int) (index : ℕ)
    (hwf : PQWF pq) (hpres : fmLookup key pq._key_to_index = some index) :
    (pq.update key v).2 = true ∧
    PQWF (pq.update key v).1 ∧
    (pq.update key v).1._heap_size = pq._heap_size ∧
    (pq.update key v).1.value key = some v ∧
    (∀ k, k ≠ key → (pq.update key v).1.value k = pq.value k) := by
  obtain ⟨hwfm, hcap⟩ := hwf
  obtain ⟨hki2k, hib1, hib2⟩ := hwfm.k2i_spec hpres
  set pq1 : indexedMinPQ K :=
    ⟨pq._array.set index v, pq._heap_size,
     pq._index_to_key, pq._key_to_index⟩ with hpq1
  have hupd : pq.update key v =
      (if v < arrGet pq1._array (_parent index) then pq1._bubble_up index
        else pq1._bubble_down index, true) := by
    unfold update
    rw [hpres]
  have hwf1 : PQMapsWF pq1 := hwfm
  have hlen1 : pq1._array.length = pq._array.length := by
    show (pq._array.set index v).length = pq._array.length
    rw [List.length_set]
  have hv1key : pq1.value key = some v := by
    unfold value
    show (fmLookup key pq._key_to_index).map
        (fun i => arrGet (pq._array.set index v) i) = some v
    rw [hpres]
    simp only [Option.map_some']
    rw [arrGet_set_self _ _ _ (by omega)]
  have hv1other : ∀ k, k ≠ key → pq1.value k = pq.value k := by
    intro k hk
    unfold value
    show (fmLookup k pq._key_to_index).map
        (fun i => arrGet (pq._array.set index v) i)
      = (fmLookup k pq._key_to_index).map (fun i => arrGet pq._array i)
    cases hlk : fmLookup k pq._key_to_index with
    | none => rfl
    | some x =>
      simp only [Option.map_some']
      have hne : index ≠ x := by
        intro hc
        have hx := (hwfm.k2i_spec hlk).1
        rw [← hc] at hx
        rw [hki2k] at hx
        exact hk (by injection hx with h; exact h.symm)
      rw [arrGet_set_ne _ _ _ _ hne]
  have hcap1 : pq1._heap_size + 1 ≤ pq1._array.length := by
    show pq._heap_size + 1 ≤ (pq._array.set index v).length
    rw [List.length_set]
    omega
  rw [hupd]
  by_cases hdir : v < arrGet pq1._array (_parent index)
  · rw [if_pos hdir]
    obtain ⟨hwf2, hhs2, hlen2, hval2⟩ :=
      _bubble_up_spec pq1 index hwf1 hcap1 hib2
    refine ⟨rfl, ⟨hwf2, ?_⟩, ?_, ?_, ?_⟩
    · rw [hhs2, hlen2]
      show pq._heap_size + 2 ≤ pq1._array.length
      rw [hlen1]
      omega
    · rw [hhs2]
    · rw [hval2 key, hv1key]
    · intro k hk
      rw [hval2 k, hv1other k hk]
  · rw [if_neg hdir]
    obtain ⟨hwf2, hhs2, hlen2, hval2⟩ :=
      _bubble_down_spec pq1 index hwf1 hcap1 hib1
    refine ⟨rfl, ⟨hwf2, ?_⟩, ?_, ?_, ?_⟩
    · rw [hhs2, hlen2]
      show pq._heap_size + 2 ≤ pq1._array.length
      rw [hlen1]
      omega
    · rw [hhs2]
    · rw [hval2 key, hv1key]
    · intro k hk
      rw [hval2 k, hv1other k hk]

theorem peek_min_spec (pq : indexedMinPQ K)
    (hwf : PQMapsWF pq) (hne : pq._heap_size ≠ 0) :
    ∃ key, fmLookup 1 pq._index_to_key = some key ∧
      pq.peek_min = some (key, arrGet pq._array 1) ∧
      pq.value key = some (arrGet pq._array 1) ∧
      fmLookup key pq._key_to_index = some 1 := by
  obtain ⟨key, hkey⟩ := hwf.surj (le_refl 1) (by omega)
  refine ⟨key, hkey, ?_, ?_, hwf.i2k_spec hkey⟩
  · unfold peek_min
    rw [if_neg hne, hkey]
  · unfold value
    rw [hwf.i2k_spec hkey]
    rfl

theorem pop_min_spec (pq : indexedMinPQ K)
    (hwf : PQWF pq) (hne : pq._heap_size ≠ 0) :
    ∃ key,
      pq.pop_min.2 = some (key, arrGet pq._array 1) ∧
      pq.value key = some (arrGet pq._array 1) ∧
      PQWF pq.pop_min.1 ∧
      pq.pop_min.1._heap_size = pq._heap_size - 1 ∧
      pq.pop_min.1.value key = none ∧
      (∀ k, k ≠ key → pq.pop_min.1.value k = pq.value k) := by
  obtain ⟨key, hkey, hpeek, hval, hk2i⟩ := peek_min_spec pq hwf.1 hne
  have hpop : pq.pop_min = ((pq.remove key).1, some (key, arrGet pq._array 1)) := by
    unfold pop_min
    rw [if_neg hne, hkey]
  obtain ⟨_, hwf', hhs', hvkey', hvother'⟩ := remove_spec pq key 1 hwf hk2i
  rw [hpop]
  exact ⟨key, rfl, hval, hwf', hhs', hvkey', hvother'⟩

end indexedMinPQ

/-! ### `TimeWindowGraph` (src/graph.py)

Adjacency sets (Python `set`) are modelled as duplicate-free lists; `add`
appends when absent, `remove` erases the element.  Python set iteration
order is unspecified per run but deterministic; the list order is the
determinization used here. -/

/-- Python `set.add` on an adjacency set. -/
def sAdd (l : List ℕ) (x : ℕ) : List ℕ := if x ∈ l then l else l ++ [x]

structure TimeWindowGraph where
  window_size : Int
  num_links : Int
  num_nodes : Int
  current_time : Int
  _graph_structure : List (ℕ × List ℕ)
  _linkheap : indexedMinPQ (ℕ × ℕ)

namespace TimeWindowGraph

/-- `TimeWindowGraph.__init__`. -/
def init (window_size : Int) : TimeWindowGraph :=
  ⟨window_size, 0, 0, 0, [], indexedMinPQ.init (ℕ × ℕ)⟩

/-- `self._graph_structure[node].add(node2)` (node present on all code
paths that reach it; absent defaults to the empty set). -/
def adjInsert (s : List (ℕ × List ℕ)) (a b : ℕ) : List (ℕ × List ℕ) :=
  fmInsert a (sAdd ((fmLookup a s).getD []) b) s

/-- `self._graph_structure[node].remove(node2)` (Python raises when the
element is absent; never on well-formed states). -/
def adjErase (s : List (ℕ × List ℕ)) (a b : ℕ) : List (ℕ × List ℕ) :=
  fmInsert a (((fmLookup a s).getD []).erase b) s

/-- `TimeWindowGraph.check_node`. -/
def check_node (g : TimeWindowGraph) (node : ℕ) : Bool :=
  (fmLookup node g._graph_structure).isSome

/-- `TimeWindowGraph.add_node`. -/
def add_node (g : TimeWindowGraph) (node : ℕ) : TimeWindowGraph × Bool :=
  if (fmLookup node g._graph_structure).isSome then (g, false)
  else
    ({ g with
        _graph_structure := fmInsert node [] g._graph_structure
        num_nodes := g.num_nodes + 1 }, true)

/-- `TimeWindowGraph.check_link`.  Returns the stored timestamp, `-1`
when either node is absent, the nodes coincide, or no link exists.  When
the adjacency sets record a link that the heap does not know (never on
well-formed states) Python returns `None`, which every caller compares
with `0` under Python-2 ordering (`None < 0`); `-1` is observationally
the same at all call sites. -/
def check_link (g : TimeWindowGraph) (node1 node2 : ℕ) : Int :=
  if ¬ g.check_node node1 ∨ ¬ g.check_node node2 ∨ node1 = node2 then -1
  else
    match fmLookup node1 g._graph_structure with
    | some l =>
        if node2 ∈ l then
          let node_pair := if node1 < node2 then (node1, node2) else (node2, node1)
          match g._linkheap.value node_pair with
          | some v => v
          | none => -1
        else -1
    | none => -1

/-- `TimeWindowGraph.remove_link`. -/
def remove_link (g : TimeWindowGraph) (node1 node2 : ℕ) : TimeWindowGraph × Bool :=
  if g.check_link node1 node2 < 0 then (g, false)
  else
    let node_pair := if node1 < node2 then (node1, node2) else (node2, node1)
    let res := g._linkheap.remove node_pair
    let g1 : TimeWindowGraph := { g with _linkheap := res.1 }
    if res.2 then
      ({ g1 with
          _graph_structure := adjErase (adjErase g1._graph_structure node1 node2) node2 node1
          num_links := g1.num_links - 1 }, true)
    else (g1, false)

/-- `TimeWindowGraph.remove_node`: removes every incident link (iterating
a snapshot of the adjacency set), then deletes the node entry. -/
def remove_node (g : TimeWindowGraph) (node : ℕ) : TimeWindowGraph × Bool :=
  match fmLookup node g._graph_structure with
  | none => (g, false)
  | some links_info =>
    let g1 := links_info.foldl (fun gg node2 => (gg.remove_link node node2).1) g
    ({ g1 with
        _graph_structure := fmErase node g1._graph_structure
        num_nodes := g1.num_nodes - 1 }, true)

/-- `TimeWindowGraph.remove_min_link`.  When `num_links > 0` but the heap
is empty (never on well-formed states) Python fails unpacking
`(None, None)`; modelled as a no-op returning `none`. -/
def remove_min_link (g : TimeWindowGraph) :
    TimeWindowGraph × Option ((ℕ × ℕ) × Int) :=
  if g.num_links = 0 then (g, none)
  else
    match g._linkheap.pop_min with
    | (pq1, some ((node1, node2), time)) =>
        let g1 : TimeWindowGraph := { g with _linkheap := pq1 }
        ({ g1 with
            _graph_structure := adjErase (adjErase g1._graph_structure node1 node2) node2 node1
            num_links := g1.num_links - 1 }, some ((node1, node2), time))
    | (pq1, none) => ({ g with _linkheap := pq1 }, none)

/-- The eviction loop of `TimeWindowGraph._remove_old_links`, with fuel.
Each pass pops exactly one link via `remove_min_link` and stops as soon as
`num_links` hits 0, so on well-formed states fuel `num_links` bounds the
number of passes (proved below for claim C9).  A failing peek or pop
(heap out of sync with `num_links`; Python would fail unpacking `None`)
stops the loop. -/
def _remove_old_links_aux : ℕ → TimeWindowGraph → TimeWindowGraph
  | 0, g => g
  | fuel + 1, g =>
    match g._linkheap.peek_min with
    | none => g
    | some (_, time) =>
      if time ≤ g.current_time - g.window_size then
        match g.remove_min_link with
        | (g1, some ((node1, node2), _)) =>
          let g2 := if ((fmLookup node1 g1._graph_structure).getD []) = []
                    then (g1.remove_node node1).1 else g1
          let g3 := if ((fmLookup node2 g2._graph_structure).getD []) = []
                    then (g2.remove_node node2).1 else g2
          if g3.num_links = 0 then g3 else _remove_old_links_aux fuel g3
        | (g1, none) => g1
      else g

/-- `TimeWindowGraph._remove_old_links`. -/
def _remove_old_links (g : TimeWindowGraph) : TimeWindowGraph :=
  if g.num_links = 0 then g
  else _remove_old_links_aux g.num_links.toNat g

/-- `TimeWindowGraph.set_current_time`. -/
def set_current_time (g : TimeWindowGraph) (time : Int) : TimeWindowGraph :=
  if 0 ≤ time then
    let g1 : TimeWindowGraph := { g with current_time := time }
    if 0 < g1.num_links then g1._remove_old_links else g1
  else g

/-- `TimeWindowGraph.add_link`. -/
def add_link (g : TimeWindowGraph) (node1 node2 : ℕ) (time : Int) :
    TimeWindowGraph × Bool :=
  if ¬ g.check_node node1 ∨ ¬ g.check_node node2 ∨ node1 = node2 ∨
      0 ≤ g.check_link node1 node2 then (g, false)
  else
    let node_pair := if node1 < node2 then (node1, node2) else (node2, node1)
    let g1 : TimeWindowGraph := { g with _linkheap := (g._linkheap.add node_pair time).1 }
    let g2 : TimeWindowGraph :=
      { g1 with
          _graph_structure := adjInsert (adjInsert g1._graph_structure node1 node2) node2 node1
          num_links := g1.num_links + 1 }
    if g2.current_time < time then (g2.set_current_time time, true) else (g2, true)

/-- `TimeWindowGraph.update_link`. -/
def update_link (g : TimeWindowGraph) (node1 node2 : ℕ) (time : Int) :
    TimeWindowGraph × Bool :=
  if g.check_link node1 node2 < 0 then (g, false)
  else
    let node_pair := if node1 < node2 then (node1, node2) else (node2, node1)
    let res := g._linkheap.update node_pair time
    let g1 : TimeWindowGraph := { g with _linkheap := res.1 }
    if res.2 then
      (if g1.current_time < time then g1.set_current_time time else g1, true)
    else (g1, false)

/-- `TimeWindowGraph.average_degree`. -/
def average_degree (g : TimeWindowGraph) : ℚ :=
  if g.num_nodes = 0 then 0 else 2 * (g.num_links : ℚ) / (g.num_nodes : ℚ)

end TimeWindowGraph

/-! ### Operation sequences (reachable states) -/

/-- The public operations of `TimeWindowGraph`.  Link timestamps are the
non-negative integers of the input contract; `setCurrentTime` accepts any
integer (negative values are defined to be ignored). -/
inductive Op where
  | addNode (n : ℕ)
  | removeNode (n : ℕ)
  | addLink (n1 n2 : ℕ) (t : ℕ)
  | updateLink (n1 n2 : ℕ) (t : ℕ)
  | removeLink (n1 n2 : ℕ)
  | removeMinLink
  | setCurrentTime (t : Int)
deriving DecidableEq

def step (g : TimeWindowGraph) : Op → TimeWindowGraph
  | .addNode n => (g.add_node n).1
  | .removeNode n => (g.remove_node n).1
  | .addLink n1 n2 t => (g.add_link n1 n2 (t : Int)).1
  | .updateLink n1 n2 t => (g.update_link n1 n2 (t : Int)).1
  | .removeLink n1 n2 => (g.remove_link n1 n2).1
  | .removeMinLink => g.remove_min_link.1
  | .setCurrentTime t => g.set_current_time t

/-- Run a sequence of public operations from the freshly constructed
graph (the program uses the default window size 60). -/
def run (ops : List Op) : TimeWindowGraph :=
  ops.foldl step (TimeWindowGraph.init 60)

/-- The public operations of `indexedMinPQ` (for the queue-level claims). -/
inductive PQOp (K : Type) where
  | add (k : K) (v : Int)
  | remove (k : K)
  | update (k : K) (v : Int)
  | popMin
deriving DecidableEq

def stepPQ {K : Type} [DecidableEq K] (pq : indexedMinPQ K) : PQOp K → indexedMinPQ K
  | .add k v => (pq.add k v).1
  | .remove k => (pq.remove k).1
  | .update k v => (pq.update k v).1
  | .popMin => pq.pop_min.1

def runPQ {K : Type} [DecidableEq K] (ops : List (PQOp K)) : indexedMinPQ K :=
  ops.foldl stepPQ (indexedMinPQ.init K)

/-- Pop the queue `n` times and collect the returned priority values. -/
def popValues {K : Type} [DecidableEq K] (pq : indexedMinPQ K) : ℕ → List Int
  | 0 => []
  | n + 1 =>
    match pq.pop_min with
    | (pq', some (_, v)) => v :: popValues pq' n
    | (_, none) => []

/-! ### Graph well-formedness -/

/-- The canonical key of the edge `{a, b}` (the graph code computes this
inline as `(node1, node2) if node1 < node2 else (node2, node1)`). -/
def nodePair (a b : ℕ) : ℕ × ℕ := if a < b then (a, b) else (b, a)

theorem nodePair_comm {a b : ℕ} (hab : a ≠ b) : nodePair a b = nodePair b a := by
  unfold nodePair
  rcases Nat.lt_or_ge a b with h | h
  · rw [if_pos h, if_neg (by omega)]
  · have h' : b < a := by omega
    rw [if_neg (by omega), if_pos h']

theorem nodePair_eq_iff {a b x y : ℕ} (hab : a ≠ b) (_hxy : x ≠ y) :
    nodePair x y = nodePair a b ↔ (x = a ∧ y = b) ∨ (x = b ∧ y = a) := by
  unfold nodePair
  constructor
  · intro h
    split at h <;> split at h <;>
      · have h1 := congrArg Prod.fst h
        have h2 := congrArg Prod.snd h
        simp only at h1 h2
        omega
  · rintro (⟨rfl, rfl⟩ | ⟨rfl, rfl⟩)
    · rfl
    · rcases Nat.lt_or_ge x y with h | h
      · rw [if_pos h, if_neg (by omega)]
      · have h' : y < x := by omega
        rw [if_neg (by omega), if_pos h']

/-- `b` is recorded as a neighbour of `a`. -/
def Adjacent (g : TimeWindowGraph) (a b : ℕ) : Prop :=
  b ∈ (fmLookup a g._graph_structure).getD []

instance (g : TimeWindowGraph) (a b : ℕ) : Decidable (Adjacent g a b) := by
  unfold Adjacent; infer_instance

/-- Graph-wide structural well-formedness, maintained by every public
operation: the heap is well-formed, `num_links` equals its size, the
adjacency map has no duplicate entries, every recorded neighbour relation
is irreflexive, symmetric and backed by a heap entry with a non-negative
timestamp, and every heap key is a canonically ordered pair recorded in
the adjacency sets. -/
def GWF (g : TimeWindowGraph) : Prop :=
  indexedMinPQ.PQWF g._linkheap ∧
  g.num_links = (g._linkheap._heap_size : Int) ∧
  fmKeysNodup g._graph_structure ∧
  (∀ p ∈ g._graph_structure, p.2.Nodup ∧
    ∀ b ∈ p.2, p.1 ≠ b ∧ p.1 ∈ (fmLookup b g._graph_structure).getD [] ∧
      0 ≤ (g._linkheap.value (nodePair p.1 b)).getD (-1)) ∧
  (∀ q ∈ g._linkheap._key_to_index,
    q.1.1 < q.1.2 ∧ q.1.2 ∈ (fmLookup q.1.1 g._graph_structure).getD [])

instance (g : TimeWindowGraph) : Decidable (GWF g) := by
  unfold GWF fmKeysNodup; infer_instance

theorem GWF.adj_spec {g : TimeWindowGraph} (h : GWF g) {a b : ℕ} {l : List ℕ}
    (hl : fmLookup a g._graph_structure = some l) (hb : b ∈ l) :
    a ≠ b ∧ b ∈ (fmLookup a g._graph_structure).getD [] ∧
    a ∈ (fmLookup b g._graph_structure).getD [] ∧
    0 ≤ (g._linkheap.value (nodePair a b)).getD (-1) := by
  have hmem := mem_of_fmLookup_eq_some hl
  obtain ⟨_, hall⟩ := h.2.2.2.1 (a, l) hmem
  obtain ⟨h1, h2, h3⟩ := hall b hb
  exact ⟨h1, by rw [hl]; exact hb, h2, h3⟩

theorem GWF.adj_nodup {g : TimeWindowGraph} (h : GWF g) {a : ℕ} {l : List ℕ}
    (hl : fmLookup a g._graph_structure = some l) : l.Nodup :=
  (h.2.2.2.1 (a, l) (mem_of_fmLookup_eq_some hl)).1

namespace TimeWindowGraph

/-- Computation of `check_link` once the node checks pass. -/
theorem check_link_eq (g : TimeWindowGraph) (a b : ℕ)
    (ha : g.check_node a = true) (hb : g.check_node b = true) (hab : a ≠ b) :
    g.check_link a b =
      if b ∈ (fmLookup a g._graph_structure).getD []
      then (g._linkheap.value (nodePair a b)).getD (-1)
      else -1 := by
  unfold check_link
  rw [if_neg (by simp [ha, hb, hab])]
  unfold check_node at ha
  obtain ⟨l, hl⟩ := Option.isSome_iff_exists.mp ha
  rw [hl]
  simp only [Option.getD_some]
  by_cases hmem : b ∈ l
  · rw [if_pos hmem, if_pos hmem]
    show (match g._linkheap.value (nodePair a b) with
          | some v => v | none => -1) = _
    cases g._linkheap.value (nodePair a b) <;> rfl
  · rw [if_neg hmem, if_neg hmem]

/-- What a non-negative `check_link` implies. -/
theorem check_link_nonneg_spec (g : TimeWindowGraph) (a b : ℕ)
    (h : 0 ≤ g.check_link a b) :
    g.check_node a = true ∧ g.check_node b = true ∧ a ≠ b ∧
    b ∈ (fmLookup a g._graph_structure).getD [] ∧
    g._linkheap.value (nodePair a b) = some (g.check_link a b) := by
  by_cases hguard : ¬ g.check_node a ∨ ¬ g.check_node b ∨ a = b
  · exfalso
    unfold check_link at h
    rw [if_pos hguard] at h
    omega
  push_neg at hguard
  obtain ⟨ha, hb, hab⟩ := hguard
  have ha' : g.check_node a = true := by simpa using ha
  have hb' : g.check_node b = true := by simpa using hb
  rw [check_link_eq g a b ha' hb' hab] at h ⊢
  by_cases hmem : b ∈ (fmLookup a g._graph_structure).getD []
  · rw [if_pos hmem] at h ⊢
    refine ⟨ha', hb', hab, hmem, ?_⟩
    cases hv : g._linkheap.value (nodePair a b) with
    | none => rw [hv] at h; simp at h
    | some v => simp
  · rw [if_neg hmem] at h
    omega

/-- On a well-formed graph a negative `check_link` between two distinct
existing nodes means there is no trace of the edge anywhere. -/
theorem check_link_neg_spec {g : TimeWindowGraph} (hwf : GWF g) {a b : ℕ}
    (ha : g.check_node a = true) (hb : g.check_node b = true) (hab : a ≠ b)
    (h : g.check_link a b < 0) :
    b ∉ (fmLookup a g._graph_structure).getD [] ∧
    fmLookup (nodePair a b) g._linkheap._key_to_index = none := by
  have hnadj : b ∉ (fmLookup a g._graph_structure).getD [] := by
    intro hmem
    unfold check_node at ha
    obtain ⟨l, hl⟩ := Option.isSome_iff_exists.mp ha
    rw [hl] at hmem
    obtain ⟨_, _, _, hval⟩ := hwf.adj_spec hl hmem
    rw [check_link_eq g a b ha hb hab, if_pos (by rw [hl]; exact hmem)] at h
    omega
  refine ⟨hnadj, ?_⟩
  cases hlk : fmLookup (nodePair a b) g._linkheap._key_to_index with
  | none => rfl
  | some i =>
    exfalso
    obtain ⟨hlt, hmem⟩ := hwf.2.2.2.2 _ (mem_of_fmLookup_eq_some hlk)
    -- the heap key is the canonical pair; its recorded adjacency gives b ∈ adj a
    have hba : b ∈ (fmLookup a g._graph_structure).getD [] := by
      unfold nodePair at hlt hmem
      rcases Nat.lt_or_ge a b with hord | hord
      · rw [if_pos hord] at hlt hmem
        exact hnadj.elim (by exact hmem)
      · have hord' : b < a := by omega
        rw [if_neg (by omega)] at hlt hmem
        -- key is (b, a): a ∈ adj b, symmetry gives b ∈ adj a
        simp only at hmem
        cases hlb : fmLookup b g._graph_structure with
        | none => rw [hlb] at hmem; simp at hmem
        | some lb =>
          rw [hlb] at hmem
          simp only [Option.getD_some] at hmem
          exact (hwf.adj_spec hlb hmem).2.2.1
    exact hnadj hba

theorem value_isSome_iff (pq : indexedMinPQ (ℕ × ℕ)) (k : ℕ × ℕ) :
    (pq.value k).isSome ↔ (fmLookup k pq._key_to_index).isSome := by
  unfold indexedMinPQ.value
  cases fmLookup k pq._key_to_index <;> simp

theorem adjErase_lookup_self (s : List (ℕ × List ℕ)) (a b : ℕ) :
    fmLookup a (adjErase s a b) = some (((fmLookup a s).getD []).erase b) := by
  unfold adjErase
  rw [fmLookup_insert_self]

theorem adjErase_lookup_ne (s : List (ℕ × List ℕ)) (a b x : ℕ) (h : x ≠ a) :
    fmLookup x (adjErase s a b) = fmLookup x s := by
  unfold adjErase
  rw [fmLookup_insert_ne _ _ _ _ h]

theorem adjInsert_lookup_self (s : List (ℕ × List ℕ)) (a b : ℕ) :
    fmLookup a (adjInsert s a b) = some (sAdd ((fmLookup a s).getD []) b) := by
  unfold adjInsert
  rw [fmLookup_insert_self]

theorem adjInsert_lookup_ne (s : List (ℕ × List ℕ)) (a b x : ℕ) (h : x ≠ a) :
    fmLookup x (adjInsert s a b) = fmLookup x s := by
  unfold adjInsert
  rw [fmLookup_insert_ne _ _ _ _ h]

theorem remove_link_of_neg (g : TimeWindowGraph) (a b : ℕ)
    (h : g.check_link a b < 0) : g.remove_link a b = (g, false) := by
  unfold remove_link
  rw [if_pos h]

/-- Removing the edge `{a, b}` from the adjacency sets and decrementing
`num_links`, given a heap from which exactly the key `nodePair a b` was
deleted, preserves graph well-formedness.  Shared between `remove_link`
and `remove_min_link`. -/
theorem unlink_gwf (g : TimeWindowGraph) (a b : ℕ) (pq' : indexedMinPQ (ℕ × ℕ))
    (hwf : GWF g) (hab : a ≠ b) {la lb : List ℕ}
    (hla : fmLookup a g._graph_structure = some la)
    (hlb : fmLookup b g._graph_structure = some lb)
    (hmem : b ∈ la)
    (hwf' : indexedMinPQ.PQWF pq')
    (hhs' : pq'._heap_size = g._linkheap._heap_size - 1)
    (hvkey' : pq'.value (nodePair a b) = none)
    (hvother' : ∀ p, p ≠ nodePair a b → pq'.value p = g._linkheap.value p) :
    GWF ⟨g.window_size, g.num_links - 1, g.num_nodes, g.current_time,
         adjErase (adjErase g._graph_structure a b) b a, pq'⟩ := by
  have hlinks : g.num_links = (g._linkheap._heap_size : Int) := hwf.2.1
  have hvpos := (hwf.adj_spec hla hmem).2.2.2
  have hidx : ∃ idx, fmLookup (nodePair a b) g._linkheap._key_to_index = some idx := by
    apply Option.isSome_iff_exists.mp
    rw [← value_isSome_iff]
    cases hv : g._linkheap.value (nodePair a b) with
    | none => rw [hv] at hvpos; simp at hvpos
    | some v => rfl
  obtain ⟨idx, hidx⟩ := hidx
  obtain ⟨hbidx1, hbidx2⟩ := (hwf.1.1.k2i_spec hidx).2
  have hs2a : fmLookup a (adjErase (adjErase g._graph_structure a b) b a)
      = some (la.erase b) := by
    rw [adjErase_lookup_ne _ _ _ _ hab, adjErase_lookup_self, hla, Option.getD_some]
  have hs2b : fmLookup b (adjErase (adjErase g._graph_structure a b) b a)
      = some (lb.erase a) := by
    rw [adjErase_lookup_self, adjErase_lookup_ne _ _ _ _ (fun hc => hab hc.symm),
        hlb, Option.getD_some]
  have hs2x : ∀ x, x ≠ a → x ≠ b →
      fmLookup x (adjErase (adjErase g._graph_structure a b) b a)
        = fmLookup x g._graph_structure := by
    intro x hxa hxb
    rw [adjErase_lookup_ne _ _ _ _ hxb, adjErase_lookup_ne _ _ _ _ hxa]
  have hnpair_ne : ∀ x y : ℕ, x ≠ y → x ≠ a → x ≠ b →
      nodePair x y ≠ nodePair a b := by
    intro x y hxy hxa hxb hc
    rcases (nodePair_eq_iff hab hxy).mp hc with ⟨h1, _⟩ | ⟨h1, _⟩
    · exact hxa h1
    · exact hxb h1
  refine ⟨hwf', ?_, ?_, ?_, ?_⟩
  · show g.num_links - 1 = (pq'._heap_size : Int)
    rw [hhs']
    rw [hlinks]
    have : 1 ≤ g._linkheap._heap_size := by omega
    push_cast [Nat.cast_sub this]
    ring
  · show fmKeysNodup (adjErase (adjErase g._graph_structure a b) b a)
    unfold adjErase
    exact fmKeysNodup_insert _ _ (fmKeysNodup_insert _ _ hwf.2.2.1)
  · -- adjacency clause
    intro p hp
    have hp' : p = (b, lb.erase a) ∨ p = (a, la.erase b) ∨
        (p ∈ g._graph_structure ∧ p.1 ≠ a ∧ p.1 ≠ b) := by
      rcases mem_fmInsert hp with h | ⟨hp1, hpb⟩
      · refine Or.inl ?_
        rw [h, adjErase_lookup_ne _ _ _ _ (fun hc => hab hc.symm), hlb,
            Option.getD_some]
      · rcases mem_fmInsert hp1 with h | ⟨hp2, hpa⟩
        · refine Or.inr (Or.inl ?_)
          rw [h, hla, Option.getD_some]
        · exact Or.inr (Or.inr ⟨hp2, hpa, hpb⟩)
    rcases hp' with rfl | rfl | ⟨hpmem, hpa, hpb⟩
    · -- entry of b
      dsimp only
      refine ⟨(hwf.adj_nodup hlb).erase a, ?_⟩
      intro y hy
      rw [List.Nodup.mem_erase_iff (hwf.adj_nodup hlb)] at hy
      obtain ⟨hya, hy⟩ := hy
      obtain ⟨hby, _, hsym, hv⟩ := hwf.adj_spec hlb hy
      have hyb : y ≠ b := fun hc => hby hc.symm
      refine ⟨hby, ?_, ?_⟩
      · rw [hs2x y hya hyb]
        exact hsym
      · have hne : nodePair b y ≠ nodePair a b := by
          intro hc
          rcases (nodePair_eq_iff hab hby).mp hc with ⟨h1, _⟩ | ⟨_, h2⟩
          · exact hab h1.symm
          · exact hya h2
        rw [hvother' _ hne]
        exact hv
    · -- entry of a
      dsimp only
      refine ⟨(hwf.adj_nodup hla).erase b, ?_⟩
      intro y hy
      rw [List.Nodup.mem_erase_iff (hwf.adj_nodup hla)] at hy
      obtain ⟨hyb, hy⟩ := hy
      obtain ⟨hay, _, hsym, hv⟩ := hwf.adj_spec hla hy
      have hya : y ≠ a := fun hc => hay hc.symm
      refine ⟨hay, ?_, ?_⟩
      · rw [hs2x y hya hyb]
        exact hsym
      · have hne : nodePair a y ≠ nodePair a b := by
          intro hc
          rcases (nodePair_eq_iff hab hay).mp hc with ⟨_, h2⟩ | ⟨h1, _⟩
          · exact hyb h2
          · exact hab h1
        rw [hvother' _ hne]
        exact hv
    · -- untouched entry
      obtain ⟨hnd, hall⟩ := hwf.2.2.2.1 p hpmem
      refine ⟨hnd, ?_⟩
      intro y hy
      obtain ⟨h1, h2, h3⟩ := hall y hy
      refine ⟨h1, ?_, ?_⟩
      · by_cases hya : y = a
        · subst hya
          rw [hs2a]
          rw [hla, Option.getD_some] at h2
          simp only [Option.getD_some]
          rw [List.Nodup.mem_erase_iff (hwf.adj_nodup hla)]
          exact ⟨hpb, h2⟩
        · by_cases hyb : y = b
          · subst hyb
            rw [hs2b]
            rw [hlb, Option.getD_some] at h2
            simp only [Option.getD_some]
            rw [List.Nodup.mem_erase_iff (hwf.adj_nodup hlb)]
            exact ⟨hpa, h2⟩
          · rw [hs2x y hya hyb]
            exact h2
      · rw [hvother' _ (hnpair_ne p.1 y h1 hpa hpb)]
        exact h3
  · -- heap keys clause
    rintro ⟨⟨x, y⟩, i⟩ hq
    have hq1 : fmLookup (x, y) pq'._key_to_index = some i :=
      fmLookup_eq_some_of_mem hwf'.1.1 hq
    have hqne : (x, y) ≠ nodePair a b := by
      intro hc
      have hnone : pq'.value (x, y) = none := by rw [hc]; exact hvkey'
      rw [indexedMinPQ.value_eq_none_iff] at hnone
      rw [hq1] at hnone
      exact absurd hnone (by simp)
    have hqsome : (g._linkheap.value (x, y)).isSome := by
      rw [← hvother' (x, y) hqne, value_isSome_iff]
      rw [hq1]
      rfl
    rw [value_isSome_iff] at hqsome
    obtain ⟨idx', hidx'⟩ := Option.isSome_iff_exists.mp hqsome
    obtain ⟨hlt, hmem'⟩ := hwf.2.2.2.2 ((x, y), idx') (mem_of_fmLookup_eq_some hidx')
    simp only at hlt hmem'
    refine ⟨hlt, ?_⟩
    show y ∈ (fmLookup x (adjErase (adjErase g._graph_structure a b) b a)).getD []
    by_cases hq1a : x = a
    · subst hq1a
      rw [hs2a]
      rw [hla, Option.getD_some] at hmem'
      simp only [Option.getD_some]
      rw [List.Nodup.mem_erase_iff (hwf.adj_nodup hla)]
      refine ⟨?_, hmem'⟩
      intro hc
      subst hc
      apply hqne
      unfold nodePair
      rw [if_pos hlt]
    · by_cases hq1b : x = b
      · subst hq1b
        rw [hs2b]
        rw [hlb, Option.getD_some] at hmem'
        simp only [Option.getD_some]
        rw [List.Nodup.mem_erase_iff (hwf.adj_nodup hlb)]
        refine ⟨?_, hmem'⟩
        intro hc
        subst hc
        apply hqne
        unfold nodePair
        rw [if_neg (by omega)]
      · rw [hs2x x hq1a hq1b]
        exact hmem'

theorem remove_link_spec (g : TimeWindowGraph) (a b : ℕ)
    (hwf : GWF g) (hpos : 0 ≤ g.check_link a b) :
    (g.remove_link a b).2 = true ∧
    GWF (g.remove_link a b).1 ∧
    (g.remove_link a b).1.num_links = g.num_links - 1 ∧
    (g.remove_link a b).1.num_nodes = g.num_nodes ∧
    (g.remove_link a b).1.current_time = g.current_time ∧
    (g.remove_link a b).1.window_size = g.window_size ∧
    fmLookup a (g.remove_link a b).1._graph_structure
      = some (((fmLookup a g._graph_structure).getD []).erase b) ∧
    fmLookup b (g.remove_link a b).1._graph_structure
      = some (((fmLookup b g._graph_structure).getD []).erase a) ∧
    (∀ x, x ≠ a → x ≠ b → fmLookup x (g.remove_link a b).1._graph_structure
      = fmLookup x g._graph_structure) ∧
    (g.remove_link a b).1._linkheap.value (nodePair a b) = none ∧
    (∀ p, p ≠ nodePair a b → (g.remove_link a b).1._linkheap.value p
      = g._linkheap.value p) := by
  obtain ⟨ha, hb, hab, hmem, hval⟩ := check_link_nonneg_spec g a b hpos
  obtain ⟨la, hla⟩ := Option.isSome_iff_exists.mp (by simpa [check_node] using ha)
  obtain ⟨lb, hlb⟩ := Option.isSome_iff_exists.mp (by simpa [check_node] using hb)
  rw [hla, Option.getD_some] at hmem
  have hmemb : a ∈ lb := by
    have := (hwf.adj_spec hla hmem).2.2.1
    rw [hlb, Option.getD_some] at this
    exact this
  have hidx : ∃ idx, fmLookup (nodePair a b) g._linkheap._key_to_index = some idx := by
    apply Option.isSome_iff_exists.mp
    rw [← value_isSome_iff]
    rw [hval]
    rfl
  obtain ⟨idx, hidx⟩ := hidx
  obtain ⟨hbidx1, hbidx2⟩ := (hwf.1.1.k2i_spec hidx).2
  obtain ⟨hres2, hwf', hhs', hvkey', hvother'⟩ :=
    indexedMinPQ.remove_spec g._linkheap (nodePair a b) idx hwf.1 hidx
  set g2 : TimeWindowGraph :=
    ⟨g.window_size, g.num_links - 1, g.num_nodes, g.current_time,
     adjErase (adjErase g._graph_structure a b) b a,
     (g._linkheap.remove (nodePair a b)).1⟩ with hg2
  have hrl : g.remove_link a b = (g2, true) := by
    unfold remove_link
    rw [if_neg (by omega)]
    dsimp only
    rw [show (if a < b then (a, b) else (b, a)) = nodePair a b from rfl]
    rw [hres2]
    rw [if_pos rfl]
  -- adjacency lookups in the new structure
  have hs2a : fmLookup a g2._graph_structure = some (la.erase b) := by
    show fmLookup a (adjErase (adjErase g._graph_structure a b) b a) = _
    rw [adjErase_lookup_ne _ _ _ _ hab, adjErase_lookup_self, hla, Option.getD_some]
  have hs2b : fmLookup b g2._graph_structure = some (lb.erase a) := by
    show fmLookup b (adjErase (adjErase g._graph_structure a b) b a) = _
    rw [adjErase_lookup_self, adjErase_lookup_ne _ _ _ _ (fun hc => hab hc.symm),
        hlb, Option.getD_some]
  have hs2x : ∀ x, x ≠ a → x ≠ b →
      fmLookup x g2._graph_structure = fmLookup x g._graph_structure := by
    intro x hxa hxb
    show fmLookup x (adjErase (adjErase g._graph_structure a b) b a) = _
    rw [adjErase_lookup_ne _ _ _ _ hxb, adjErase_lookup_ne _ _ _ _ hxa]
  have hgwf2 : GWF g2 :=
    unlink_gwf g a b _ hwf hab hla hlb hmem hwf' hhs' hvkey' hvother'
  rw [hrl]
  refine ⟨rfl, hgwf2, rfl, rfl, rfl, rfl, ?_, ?_, ?_, ?_, ?_⟩
  · rw [hs2a, hla, Option.getD_some]
  · rw [hs2b, hlb, Option.getD_some]
  · exact hs2x
  · exact hvkey'
  · exact hvother'

theorem remove_node_of_absent (g : TimeWindowGraph) (node : ℕ)
    (h : fmLookup node g._graph_structure = none) :
    g.remove_node node = (g, false) := by
  unfold remove_node
  rw [h]

/-- Deleting the map entry of a node whose adjacency set is empty
preserves graph well-formedness. -/
theorem erase_isolated_gwf (g : TimeWindowGraph) (node : ℕ)
    (hwf : GWF g) (hl : fmLookup node g._graph_structure = some []) :
    GWF ⟨g.window_size, g.num_links, g.num_nodes - 1, g.current_time,
         fmErase node g._graph_structure, g._linkheap⟩ := by
  refine ⟨hwf.1, hwf.2.1, fmKeysNodup_erase _ hwf.2.2.1, ?_, ?_⟩
  · intro p hp
    obtain ⟨hp, hpne⟩ := mem_fmErase hp
    obtain ⟨hnd, hall⟩ := hwf.2.2.2.1 p hp
    refine ⟨hnd, ?_⟩
    intro y hy
    obtain ⟨h1, h2, h3⟩ := hall y hy
    have hyne : y ≠ node := by
      intro hc
      rw [hc, hl] at h2
      simp at h2
    refine ⟨h1, ?_, h3⟩
    show p.1 ∈ (fmLookup y (fmErase node g._graph_structure)).getD []
    rw [fmLookup_erase_ne _ _ _ hyne]
    exact h2
  · intro q hq
    obtain ⟨hlt, hmem⟩ := hwf.2.2.2.2 q hq
    have hne : q.1.1 ≠ node := by
      intro hc
      rw [hc, hl] at hmem
      simp at hmem
    refine ⟨hlt, ?_⟩
    show q.1.2 ∈ (fmLookup q.1.1 (fmErase node g._graph_structure)).getD []
    rw [fmLookup_erase_ne _ _ _ hne]
    exact hmem

/-- `remove_node` on a node with no incident links only deletes the map
entry and decrements `num_nodes`. -/
theorem remove_node_isolated_eq (g : TimeWindowGraph) (node : ℕ)
    (hl : fmLookup node g._graph_structure = some []) :
    g.remove_node node =
      (⟨g.window_size, g.num_links, g.num_nodes - 1, g.current_time,
        fmErase node g._graph_structure, g._linkheap⟩, true) := by
  unfold remove_node
  rw [hl]
  rfl

/-- The cascade of `remove_link` calls in `remove_node` keeps the graph
well-formed and empties the node's adjacency set. -/
theorem remove_node_fold_gwf (node : ℕ) :
    ∀ (l : List ℕ) (g : TimeWindowGraph), GWF g →
      fmLookup node g._graph_structure = some l →
      GWF (l.foldl (fun gg node2 => (gg.remove_link node node2).1) g) ∧
      fmLookup node
        (l.foldl (fun gg node2 => (gg.remove_link node node2).1) g)._graph_structure
        = some [] := by
  intro l
  induction l with
  | nil => intro g hwf hl; exact ⟨hwf, hl⟩
  | cons b t ih =>
    intro g hwf hl
    have hmem : b ∈ (b :: t) := List.mem_cons_self _ _
    obtain ⟨hne, _, hsym, hv⟩ := hwf.adj_spec hl hmem
    have hbnode : (fmLookup b g._graph_structure).isSome := by
      cases hlb : fmLookup b g._graph_structure with
      | none => rw [hlb] at hsym; simp at hsym
      | some _ => rfl
    have hpos : 0 ≤ g.check_link node b := by
      rw [check_link_eq g node b (by unfold check_node; rw [hl]; rfl)
          (by unfold check_node; exact hbnode) hne]
      rw [if_pos (by rw [hl]; exact hmem)]
      exact hv
    obtain ⟨_, hwf', _, _, _, _, hsa, _, _, _, _⟩ :=
      remove_link_spec g node b hwf hpos
    have hl' : fmLookup node (g.remove_link node b).1._graph_structure
        = some t := by
      rw [hsa, hl, Option.getD_some, List.erase_cons_head]
    rw [List.foldl_cons]
    exact ih ((g.remove_link node b).1) hwf' hl'

theorem remove_node_spec (g : TimeWindowGraph) (node : ℕ) (l : List ℕ)
    (hwf : GWF g) (hl : fmLookup node g._graph_structure = some l) :
    (g.remove_node node).2 = true ∧ GWF (g.remove_node node).1 := by
  obtain ⟨hwfF, hlF⟩ := remove_node_fold_gwf node l g hwf hl
  unfold remove_node
  rw [hl]
  exact ⟨rfl, erase_isolated_gwf _ node hwfF hlF⟩

theorem nodePair_eq_of_lt {a b : ℕ} (h : a < b) : nodePair a b = (a, b) := by
  unfold nodePair
  rw [if_pos h]

theorem remove_min_link_of_zero (g : TimeWindowGraph) (h : g.num_links = 0) :
    g.remove_min_link = (g, none) := by
  unfold remove_min_link
  rw [if_pos h]

theorem remove_min_link_spec (g : TimeWindowGraph) (hwf : GWF g)
    (hpos : g.num_links ≠ 0) :
    ∃ n1 n2 la lb,
      n1 < n2 ∧
      fmLookup n1 g._graph_structure = some la ∧ n2 ∈ la ∧
      fmLookup n2 g._graph_structure = some lb ∧ n1 ∈ lb ∧
      g.remove_min_link =
        (⟨g.window_size, g.num_links - 1, g.num_nodes, g.current_time,
          adjErase (adjErase g._graph_structure n1 n2) n2 n1,
          g._linkheap.pop_min.1⟩,
         some ((n1, n2), arrGet g._linkheap._array 1)) ∧
      GWF g.remove_min_link.1 ∧
      g._linkheap.value (n1, n2) = some (arrGet g._linkheap._array 1) ∧
      g.remove_min_link.1._linkheap.value (n1, n2) = none ∧
      (∀ p, p ≠ (n1, n2) →
        g.remove_min_link.1._linkheap.value p = g._linkheap.value p) := by
  have hhs0 : g._linkheap._heap_size ≠ 0 := by
    intro hc
    apply hpos
    rw [hwf.2.1, hc]
    rfl
  obtain ⟨key, hpop2, hvalk, hwfp, hhsp, hvkeyp, hvotherp⟩ :=
    indexedMinPQ.pop_min_spec g._linkheap hwf.1 hhs0
  obtain ⟨n1, n2⟩ := key
  -- the popped key is a stored edge
  have hkmem : ∃ idx, fmLookup (n1, n2) g._linkheap._key_to_index = some idx := by
    apply Option.isSome_iff_exists.mp
    rw [← value_isSome_iff, hvalk]
    rfl
  obtain ⟨idx, hkmemi⟩ := hkmem
  obtain ⟨hlt, hadj⟩ := hwf.2.2.2.2 ((n1, n2), idx) (mem_of_fmLookup_eq_some hkmemi)
  simp only at hlt hadj
  obtain ⟨la, hla⟩ := Option.isSome_iff_exists.mp
    (show (fmLookup n1 g._graph_structure).isSome by
      cases h : fmLookup n1 g._graph_structure with
      | none => rw [h] at hadj; simp at hadj
      | some _ => rfl)
  rw [hla, Option.getD_some] at hadj
  obtain ⟨hne12, _, hsym, _⟩ := hwf.adj_spec hla hadj
  obtain ⟨lb, hlb⟩ := Option.isSome_iff_exists.mp
    (show (fmLookup n2 g._graph_structure).isSome by
      cases h : fmLookup n2 g._graph_structure with
      | none => rw [h] at hsym; simp at hsym
      | some _ => rfl)
  rw [hlb, Option.getD_some] at hsym
  -- reduce remove_min_link
  rcases hpm : g._linkheap.pop_min with ⟨pq1, r⟩
  rw [hpm] at hpop2 hwfp hhsp hvkeyp hvotherp
  simp only at hpop2
  rw [hpop2] at hpm
  have hrml : g.remove_min_link =
      (⟨g.window_size, g.num_links - 1, g.num_nodes, g.current_time,
        adjErase (adjErase g._graph_structure n1 n2) n2 n1, pq1⟩,
       some ((n1, n2), arrGet g._linkheap._array 1)) := by
    unfold remove_min_link
    rw [if_neg hpos, hpm]
  have hgwf' :
      GWF ⟨g.window_size, g.num_links - 1, g.num_nodes, g.current_time,
        adjErase (adjErase g._graph_structure n1 n2) n2 n1, pq1⟩ := by
    apply unlink_gwf g n1 n2 pq1 hwf (by omega) hla hlb hadj hwfp hhsp
    · rw [nodePair_eq_of_lt hlt]
      exact hvkeyp
    · intro p hp
      rw [nodePair_eq_of_lt hlt] at hp
      exact hvotherp p hp
  refine ⟨n1, n2, la, lb, hlt, hla, hadj, hlb, hsym, ?_, ?_, hvalk, ?_, ?_⟩
  · rw [hrml]
  · rw [hrml]
    exact hgwf'
  · rw [hrml]
    exact hvkeyp
  · intro p hp
    rw [hrml]
    exact hvotherp p hp

/-! #### The operations never touch `current_time` or `window_size`
except through `set_current_time`. -/

theorem remove_link_fields (g : TimeWindowGraph) (a b : ℕ) :
    (g.remove_link a b).1.current_time = g.current_time ∧
    (g.remove_link a b).1.window_size = g.window_size := by
  unfold remove_link
  dsimp only
  repeat' split
  all_goals exact ⟨rfl, rfl⟩

theorem remove_link_fold_fields (node : ℕ) :
    ∀ (l : List ℕ) (g : TimeWindowGraph),
      (l.foldl (fun gg node2 => (gg.remove_link node node2).1) g).current_time
        = g.current_time ∧
      (l.foldl (fun gg node2 => (gg.remove_link node node2).1) g).window_size
        = g.window_size := by
  intro l
  induction l with
  | nil => intro g; exact ⟨rfl, rfl⟩
  | cons b t ih =>
    intro g
    rw [List.foldl_cons]
    obtain ⟨h1, h2⟩ := ih ((g.remove_link node b).1)
    obtain ⟨h3, h4⟩ := remove_link_fields g node b
    exact ⟨by rw [h1, h3], by rw [h2, h4]⟩

theorem remove_node_fields (g : TimeWindowGraph) (node : ℕ) :
    (g.remove_node node).1.current_time = g.current_time ∧
    (g.remove_node node).1.window_size = g.window_size := by
  unfold remove_node
  cases hl : fmLookup node g._graph_structure with
  | none => exact ⟨rfl, rfl⟩
  | some l =>
    exact ⟨(remove_link_fold_fields node l g).1, (remove_link_fold_fields node l g).2⟩

theorem remove_min_link_fields (g : TimeWindowGraph) :
    g.remove_min_link.1.current_time = g.current_time ∧
    g.remove_min_link.1.window_size = g.window_size := by
  unfold remove_min_link
  dsimp only
  repeat' split
  all_goals exact ⟨rfl, rfl⟩

/-! #### Reduction equations for the eviction loop -/

theorem _remove_old_links_aux_succ_nopeek (fuel : ℕ) (g : TimeWindowGraph)
    (h : g._linkheap.peek_min = none) :
    _remove_old_links_aux (fuel + 1) g = g := by
  conv_lhs => unfold _remove_old_links_aux
  rw [h]

theorem _remove_old_links_aux_succ_stop (fuel : ℕ) (g : TimeWindowGraph)
    (k : ℕ × ℕ) (t : Int) (h : g._linkheap.peek_min = some (k, t))
    (hc : ¬ t ≤ g.current_time - g.window_size) :
    _remove_old_links_aux (fuel + 1) g = g := by
  conv_lhs => unfold _remove_old_links_aux
  rw [h]
  dsimp only
  rw [if_neg hc]

theorem _remove_old_links_aux_succ_fail (fuel : ℕ) (g g1 : TimeWindowGraph)
    (k : ℕ × ℕ) (t : Int) (h : g._linkheap.peek_min = some (k, t))
    (hc : t ≤ g.current_time - g.window_size)
    (hrm : g.remove_min_link = (g1, none)) :
    _remove_old_links_aux (fuel + 1) g = g1 := by
  conv_lhs => unfold _remove_old_links_aux
  rw [h]
  dsimp only
  rw [if_pos hc, hrm]

theorem _remove_old_links_aux_succ_pop (fuel : ℕ) (g g1 : TimeWindowGraph)
    (k : ℕ × ℕ) (t : Int) (n1 n2 : ℕ) (t' : Int)
    (h : g._linkheap.peek_min = some (k, t))
    (hc : t ≤ g.current_time - g.window_size)
    (hrm : g.remove_min_link = (g1, some ((n1, n2), t'))) :
    _remove_old_links_aux (fuel + 1) g =
      (let g2 := if ((fmLookup n1 g1._graph_structure).getD []) = []
                 then (g1.remove_node n1).1 else g1
       let g3 := if ((fmLookup n2 g2._graph_structure).getD []) = []
                 then (g2.remove_node n2).1 else g2
       if g3.num_links = 0 then g3 else _remove_old_links_aux fuel g3) := by
  conv_lhs => unfold _remove_old_links_aux
  rw [h]
  dsimp only
  rw [if_pos hc, hrm]

/-- `remove_node` preserves well-formedness whether or not the node
exists. -/
theorem remove_node_gwf_any (g : TimeWindowGraph) (node : ℕ) (hwf : GWF g) :
    GWF (g.remove_node node).1 := by
  cases hl : fmLookup node g._graph_structure with
  | none => rw [remove_node_of_absent g node hl]; exact hwf
  | some l => exact (remove_node_spec g node l hwf hl).2

/-- The eviction loop preserves well-formedness, `current_time` and
`window_size`. -/
theorem _remove_old_links_aux_gwf :
    ∀ (fuel : ℕ) (g : TimeWindowGraph), GWF g →
      GWF (_remove_old_links_aux fuel g) ∧
      (_remove_old_links_aux fuel g).current_time = g.current_time ∧
      (_remove_old_links_aux fuel g).window_size = g.window_size := by
  intro fuel
  induction fuel with
  | zero => intro g hwf; exact ⟨hwf, rfl, rfl⟩
  | succ fuel ih =>
    intro g hwf
    cases hpk : g._linkheap.peek_min with
    | none =>
      rw [_remove_old_links_aux_succ_nopeek fuel g hpk]
      exact ⟨hwf, rfl, rfl⟩
    | some kv =>
      obtain ⟨k, t⟩ := kv
      by_cases hc : t ≤ g.current_time - g.window_size
      · by_cases hnl : g.num_links = 0
        · rw [_remove_old_links_aux_succ_fail fuel g g k t hpk hc
              (remove_min_link_of_zero g hnl)]
          exact ⟨hwf, rfl, rfl⟩
        · obtain ⟨n1, n2, la, lb, _, _, _, _, _, hrml, hgwf1, _, _, _⟩ :=
            remove_min_link_spec g hwf hnl
          rw [_remove_old_links_aux_succ_pop fuel g _ k t n1 n2 _ hpk hc hrml]
          dsimp only
          rw [hrml] at hgwf1
          simp only at hgwf1
          set g1 : TimeWindowGraph :=
            ⟨g.window_size, g.num_links - 1, g.num_nodes, g.current_time,
             adjErase (adjErase g._graph_structure n1 n2) n2 n1,
             g._linkheap.pop_min.1⟩ with hg1
          set g2 := if ((fmLookup n1 g1._graph_structure).getD []) = []
                    then (g1.remove_node n1).1 else g1 with hg2
          have hgwf2 : GWF g2 := by
            rw [hg2]
            split
            · exact remove_node_gwf_any g1 n1 hgwf1
            · exact hgwf1
          have hg2f : g2.current_time = g.current_time ∧
              g2.window_size = g.window_size := by
            rw [hg2]
            split
            · exact (remove_node_fields g1 n1)
            · exact ⟨rfl, rfl⟩
          set g3 := if ((fmLookup n2 g2._graph_structure).getD []) = []
                    then (g2.remove_node n2).1 else g2 with hg3
          have hgwf3 : GWF g3 := by
            rw [hg3]
            split
            · exact remove_node_gwf_any g2 n2 hgwf2
            · exact hgwf2
          have hg3f : g3.current_time = g.current_time ∧
              g3.window_size = g.window_size := by
            rw [hg3]
            split
            · obtain ⟨ha1, ha2⟩ := remove_node_fields g2 n2
              exact ⟨by rw [ha1, hg2f.1], by rw [ha2, hg2f.2]⟩
            · exact hg2f
          show GWF (if g3.num_links = 0 then g3 else _remove_old_links_aux fuel g3) ∧ _
          by_cases hz : g3.num_links = 0
          · rw [if_pos hz]
            exact ⟨hgwf3, hg3f.1, hg3f.2⟩
          · rw [if_neg hz]
            obtain ⟨hb1, hb2, hb3⟩ := ih g3 hgwf3
            exact ⟨hb1, by rw [hb2, hg3f.1], by rw [hb3, hg3f.2]⟩
      · rw [_remove_old_links_aux_succ_stop fuel g k t hpk hc]
        exact ⟨hwf, rfl, rfl⟩

theorem _remove_old_links_gwf (g : TimeWindowGraph) (hwf : GWF g) :
    GWF g._remove_old_links ∧
    g._remove_old_links.current_time = g.current_time ∧
    g._remove_old_links.window_size = g.window_size := by
  unfold _remove_old_links
  split
  · exact ⟨hwf, rfl, rfl⟩
  · exact _remove_old_links_aux_gwf _ g hwf

theorem set_current_time_gwf (g : TimeWindowGraph) (t : Int) (hwf : GWF g) :
    GWF (g.set_current_time t) ∧
    (g.set_current_time t).current_time = (if 0 ≤ t then t else g.current_time) ∧
    (g.set_current_time t).window_size = g.window_size := by
  unfold set_current_time
  by_cases h0 : 0 ≤ t
  · rw [if_pos h0, if_pos h0]
    dsimp only
    have hwf' : GWF { g with current_time := t } := hwf
    split
    · obtain ⟨hb1, hb2, hb3⟩ := _remove_old_links_gwf _ hwf'
      exact ⟨hb1, hb2, hb3⟩
    · exact ⟨hwf', rfl, rfl⟩
  · rw [if_neg h0, if_neg h0]
    exact ⟨hwf, rfl, rfl⟩

theorem add_node_gwf (g : TimeWindowGraph) (n : ℕ) (hwf : GWF g) :
    GWF (g.add_node n).1 := by
  unfold add_node
  by_cases h : (fmLookup n g._graph_structure).isSome
  · rw [if_pos h]
    exact hwf
  · rw [if_neg h]
    have hnone : fmLookup n g._graph_structure = none :=
      Option.not_isSome_iff_eq_none.mp h
    refine ⟨hwf.1, hwf.2.1, fmKeysNodup_insert _ _ hwf.2.2.1, ?_, ?_⟩
    · intro p hp
      rcases mem_fmInsert hp with h' | ⟨hp, hpne⟩
      · subst h'
        exact ⟨List.nodup_nil, fun y hy => absurd hy (List.not_mem_nil y)⟩
      · obtain ⟨hnd, hall⟩ := hwf.2.2.2.1 p hp
        refine ⟨hnd, fun y hy => ?_⟩
        obtain ⟨h1, h2, h3⟩ := hall y hy
        refine ⟨h1, ?_, h3⟩
        have hyne : y ≠ n := by
          intro hc
          rw [hc, hnone] at h2
          simp at h2
        show p.1 ∈ (fmLookup y (fmInsert n [] g._graph_structure)).getD []
        rw [fmLookup_insert_ne _ _ _ _ hyne]
        exact h2
    · intro q hq
      obtain ⟨hlt, hmem⟩ := hwf.2.2.2.2 q hq
      have hne : q.1.1 ≠ n := by
        intro hc
        rw [hc, hnone] at hmem
        simp at hmem
      refine ⟨hlt, ?_⟩
      show q.1.2 ∈ (fmLookup q.1.1 (fmInsert n [] g._graph_structure)).getD []
      rw [fmLookup_insert_ne _ _ _ _ hne]
      exact hmem

theorem nodePair_lt {a b : ℕ} (hab : a ≠ b) :
    (nodePair a b).1 < (nodePair a b).2 := by
  unfold nodePair
  rcases Nat.lt_or_ge a b with h | h
  · rw [if_pos h]; exact h
  · rw [if_neg (by omega)]; show b < a; omega

theorem sAdd_of_not_mem {l : List ℕ} {x : ℕ} (h : x ∉ l) : sAdd l x = l ++ [x] := by
  unfold sAdd
  rw [if_neg h]

theorem sAdd_nodup {l : List ℕ} {x : ℕ} (hnd : l.Nodup) (h : x ∉ l) :
    (l ++ [x]).Nodup := by
  rw [List.nodup_append]
  exact ⟨hnd, List.nodup_singleton x,
    fun y hy hy' => h (by rw [List.mem_singleton] at hy'; rw [← hy']; exact hy)⟩

/-- Adding the edge `{a, b}` to the adjacency sets and incrementing
`num_links`, given a heap to which exactly the key `nodePair a b` was
added with a non-negative value, preserves graph well-formedness. -/
theorem link_gwf (g : TimeWindowGraph) (a b : ℕ) (t : Int)
    (pq' : indexedMinPQ (ℕ × ℕ)) (hwf : GWF g) (hab : a ≠ b)
    {la lb : List ℕ}
    (hla : fmLookup a g._graph_structure = some la)
    (hlb : fmLookup b g._graph_structure = some lb)
    (hnadj : b ∉ la)
    (ht : 0 ≤ t)
    (hwfp : indexedMinPQ.PQWF pq')
    (hhsp : pq'._heap_size = g._linkheap._heap_size + 1)
    (hvkey : pq'.value (nodePair a b) = some t)
    (hvother : ∀ p, p ≠ nodePair a b → pq'.value p = g._linkheap.value p) :
    GWF ⟨g.window_size, g.num_links + 1, g.num_nodes, g.current_time,
         adjInsert (adjInsert g._graph_structure a b) b a, pq'⟩ := by
  have hnadjb : a ∉ lb := by
    intro hmem
    have := (hwf.adj_spec hlb hmem).2.2.1
    rw [hla, Option.getD_some] at this
    exact hnadj this
  have hs2a : fmLookup a (adjInsert (adjInsert g._graph_structure a b) b a)
      = some (la ++ [b]) := by
    rw [adjInsert_lookup_ne _ _ _ _ hab, adjInsert_lookup_self, hla,
        Option.getD_some, sAdd_of_not_mem hnadj]
  have hs2b : fmLookup b (adjInsert (adjInsert g._graph_structure a b) b a)
      = some (lb ++ [a]) := by
    rw [adjInsert_lookup_self, adjInsert_lookup_ne _ _ _ _ (fun hc => hab hc.symm),
        hlb, Option.getD_some, sAdd_of_not_mem hnadjb]
  have hs2x : ∀ x, x ≠ a → x ≠ b →
      fmLookup x (adjInsert (adjInsert g._graph_structure a b) b a)
        = fmLookup x g._graph_structure := by
    intro x hxa hxb
    rw [adjInsert_lookup_ne _ _ _ _ hxb, adjInsert_lookup_ne _ _ _ _ hxa]
  have hnpair_ne : ∀ x y : ℕ, x ≠ y → x ≠ a → x ≠ b →
      nodePair x y ≠ nodePair a b := by
    intro x y hxy hxa hxb hc
    rcases (nodePair_eq_iff hab hxy).mp hc with ⟨h1, _⟩ | ⟨h1, _⟩
    · exact hxa h1
    · exact hxb h1
  refine ⟨hwfp, ?_, ?_, ?_, ?_⟩
  · show g.num_links + 1 = (pq'._heap_size : Int)
    rw [hhsp, hwf.2.1]
    push_cast
    ring
  · show fmKeysNodup (adjInsert (adjInsert g._graph_structure a b) b a)
    unfold adjInsert
    exact fmKeysNodup_insert _ _ (fmKeysNodup_insert _ _ hwf.2.2.1)
  · -- adjacency clause
    intro p hp
    have hp' : p = (b, lb ++ [a]) ∨ p = (a, la ++ [b]) ∨
        (p ∈ g._graph_structure ∧ p.1 ≠ a ∧ p.1 ≠ b) := by
      rcases mem_fmInsert hp with h | ⟨hp1, hpb⟩
      · refine Or.inl ?_
        rw [h, adjInsert_lookup_ne _ _ _ _ (fun hc => hab hc.symm), hlb,
            Option.getD_some, sAdd_of_not_mem hnadjb]
      · rcases mem_fmInsert hp1 with h | ⟨hp2, hpa⟩
        · refine Or.inr (Or.inl ?_)
          rw [h, hla, Option.getD_some, sAdd_of_not_mem hnadj]
        · exact Or.inr (Or.inr ⟨hp2, hpa, hpb⟩)
    rcases hp' with rfl | rfl | ⟨hpmem, hpa, hpb⟩
    · -- entry of b
      dsimp only
      refine ⟨sAdd_nodup (hwf.adj_nodup hlb) hnadjb, ?_⟩
      intro y hy
      rcases List.mem_append.mp hy with hy | hy
      · obtain ⟨hby, _, hsym, hv⟩ := hwf.adj_spec hlb hy
        have hya : y ≠ a := fun hc => hnadjb (hc ▸ hy)
        have hyb : y ≠ b := fun hc => hby hc.symm
        refine ⟨hby, ?_, ?_⟩
        · rw [hs2x y hya hyb]
          exact hsym
        · have hne : nodePair b y ≠ nodePair a b := by
            intro hc
            rcases (nodePair_eq_iff hab hby).mp hc with ⟨h1, _⟩ | ⟨_, h2⟩
            · exact hab h1.symm
            · exact hya h2
          rw [hvother _ hne]
          exact hv
      · rw [List.mem_singleton] at hy
        subst hy
        refine ⟨fun hc => hab hc.symm, ?_, ?_⟩
        · rw [hs2a]
          simp only [Option.getD_some]
          exact List.mem_append_right _ (List.mem_singleton_self b)
        · rw [nodePair_comm (fun hc => hab hc.symm), hvkey]
          simpa using ht
    · -- entry of a
      dsimp only
      refine ⟨sAdd_nodup (hwf.adj_nodup hla) hnadj, ?_⟩
      intro y hy
      rcases List.mem_append.mp hy with hy | hy
      · obtain ⟨hay, _, hsym, hv⟩ := hwf.adj_spec hla hy
        have hyb : y ≠ b := fun hc => hnadj (hc ▸ hy)
        have hya : y ≠ a := fun hc => hay hc.symm
        refine ⟨hay, ?_, ?_⟩
        · rw [hs2x y hya hyb]
          exact hsym
        · have hne : nodePair a y ≠ nodePair a b := by
            intro hc
            rcases (nodePair_eq_iff hab hay).mp hc with ⟨_, h2⟩ | ⟨h1, _⟩
            · exact hyb h2
            · exact hab h1
          rw [hvother _ hne]
          exact hv
      · rw [List.mem_singleton] at hy
        subst hy
        refine ⟨hab, ?_, ?_⟩
        · rw [hs2b]
          simp only [Option.getD_some]
          exact List.mem_append_right _ (List.mem_singleton_self a)
        · rw [hvkey]
          simpa using ht
    · -- untouched entry
      obtain ⟨hnd, hall⟩ := hwf.2.2.2.1 p hpmem
      refine ⟨hnd, ?_⟩
      intro y hy
      obtain ⟨h1, h2, h3⟩ := hall y hy
      refine ⟨h1, ?_, ?_⟩
      · by_cases hya : y = a
        · subst hya
          rw [hs2a]
          rw [hla, Option.getD_some] at h2
          simp only [Option.getD_some]
          exact List.mem_append_left _ h2
        · by_cases hyb : y = b
          · subst hyb
            rw [hs2b]
            rw [hlb, Option.getD_some] at h2
            simp only [Option.getD_some]
            exact List.mem_append_left _ h2
          · rw [hs2x y hya hyb]
            exact h2
      · rw [hvother _ (hnpair_ne p.1 y h1 hpa hpb)]
        exact h3
  · -- heap keys clause
    rintro ⟨⟨x, y⟩, i⟩ hq
    have hq1 : fmLookup (x, y) pq'._key_to_index = some i :=
      fmLookup_eq_some_of_mem hwfp.1.1 hq
    by_cases hqnp : (x, y) = nodePair a b
    · have hlt := nodePair_lt hab
      rw [← hqnp] at hlt
      simp only at hlt
      refine ⟨hlt, ?_⟩
      show y ∈ (fmLookup x (adjInsert (adjInsert g._graph_structure a b) b a)).getD []
      rcases Nat.lt_or_ge a b with ho | ho
      · have hnp : nodePair a b = (a, b) := nodePair_eq_of_lt ho
        rw [hnp] at hqnp
        have hx : x = a := congrArg Prod.fst hqnp
        have hy : y = b := congrArg Prod.snd hqnp
        rw [hx, hy, hs2a]
        simp only [Option.getD_some]
        exact List.mem_append_right _ (List.mem_singleton_self b)
      · have hnp : nodePair a b = (b, a) := by
          unfold nodePair
          rw [if_neg (by omega)]
        rw [hnp] at hqnp
        have hx : x = b := congrArg Prod.fst hqnp
        have hy : y = a := congrArg Prod.snd hqnp
        rw [hx, hy, hs2b]
        simp only [Option.getD_some]
        exact List.mem_append_right _ (List.mem_singleton_self a)
    · have hqsome : (g._linkheap.value (x, y)).isSome := by
        rw [← hvother (x, y) hqnp, value_isSome_iff]
        rw [hq1]
        rfl
      rw [value_isSome_iff] at hqsome
      obtain ⟨idx', hidx'⟩ := Option.isSome_iff_exists.mp hqsome
      obtain ⟨hlt, hmem'⟩ := hwf.2.2.2.2 ((x, y), idx') (mem_of_fmLookup_eq_some hidx')
      simp only at hlt hmem'
      refine ⟨hlt, ?_⟩
      show y ∈ (fmLookup x (adjInsert (adjInsert g._graph_structure a b) b a)).getD []
      by_cases hq1a : x = a
      · subst hq1a
        rw [hs2a]
        rw [hla, Option.getD_some] at hmem'
        simp only [Option.getD_some]
        exact List.mem_append_left _ hmem'
      · by_cases hq1b : x = b
        · subst hq1b
          rw [hs2b]
          rw [hlb, Option.getD_some] at hmem'
          simp only [Option.getD_some]
          exact List.mem_append_left _ hmem'
        · rw [hs2x x hq1a hq1b]
          exact hmem'

theorem add_link_of_fail (g : TimeWindowGraph) (a b : ℕ) (t : Int)
    (h : ¬ g.check_node a ∨ ¬ g.check_node b ∨ a = b ∨ 0 ≤ g.check_link a b) :
    g.add_link a b t = (g, false) := by
  unfold add_link
  rw [if_pos h]

theorem add_link_spec (g : TimeWindowGraph) (a b : ℕ) (t : Int) (hwf : GWF g)
    (ha : g.check_node a = true) (hb : g.check_node b = true) (hab : a ≠ b)
    (hneg : g.check_link a b < 0) (ht : 0 ≤ t) :
    (g.add_link a b t).2 = true ∧
    ∃ g2 : TimeWindowGraph,
      g2 = ⟨g.window_size, g.num_links + 1, g.num_nodes, g.current_time,
            adjInsert (adjInsert g._graph_structure a b) b a,
            (g._linkheap.add (nodePair a b) t).1⟩ ∧
      (g.add_link a b t).1
        = (if g2.current_time < t then g2.set_current_time t else g2) ∧
      GWF g2 ∧
      g2.check_link a b = t ∧
      Adjacent g2 a b ∧ Adjacent g2 b a ∧
      g2.num_links = g.num_links + 1 ∧
      g2.current_time = g.current_time ∧
      GWF (g.add_link a b t).1 := by
  obtain ⟨la, hla⟩ := Option.isSome_iff_exists.mp (by simpa [check_node] using ha)
  obtain ⟨lb, hlb⟩ := Option.isSome_iff_exists.mp (by simpa [check_node] using hb)
  obtain ⟨hnadj, hnokey⟩ := check_link_neg_spec hwf ha hb hab hneg
  rw [hla, Option.getD_some] at hnadj
  obtain ⟨hres2, hwfp, hhsp, hvkey, hvother⟩ :=
    indexedMinPQ.add_spec g._linkheap (nodePair a b) t hwf.1 hnokey
  set g2 : TimeWindowGraph :=
    ⟨g.window_size, g.num_links + 1, g.num_nodes, g.current_time,
     adjInsert (adjInsert g._graph_structure a b) b a,
     (g._linkheap.add (nodePair a b) t).1⟩ with hg2
  have hguard : ¬ (¬ g.check_node a ∨ ¬ g.check_node b ∨ a = b ∨
      0 ≤ g.check_link a b) := by
    push_neg
    refine ⟨by simp [ha], by simp [hb], hab, by omega⟩
  have hfull : g.add_link a b t =
      (if g2.current_time < t then (g2.set_current_time t, true) else (g2, true)) := by
    unfold add_link
    rw [if_neg hguard]
    dsimp only
    rw [show (if a < b then (a, b) else (b, a)) = nodePair a b from rfl]
  have hgwf2 : GWF g2 :=
    link_gwf g a b t _ hwf hab hla hlb hnadj ht hwfp hhsp hvkey hvother
  have hs2a : fmLookup a g2._graph_structure = some (la ++ [b]) := by
    show fmLookup a (adjInsert (adjInsert g._graph_structure a b) b a) = _
    rw [adjInsert_lookup_ne _ _ _ _ hab, adjInsert_lookup_self, hla,
        Option.getD_some, sAdd_of_not_mem hnadj]
  have hcheck2 : g2.check_link a b = t := by
    rw [check_link_eq g2 a b (by unfold check_node; rw [hs2a]; rfl)
        (by
          unfold check_node
          show (fmLookup b (adjInsert (adjInsert g._graph_structure a b) b a)).isSome
          rw [adjInsert_lookup_self]
          rfl)
        hab]
    rw [if_pos (by
      rw [hs2a]
      simp only [Option.getD_some]
      exact List.mem_append_right _ (List.mem_singleton_self b))]
    show (g2._linkheap.value (nodePair a b)).getD (-1) = t
    rw [show g2._linkheap = (g._linkheap.add (nodePair a b) t).1 from rfl, hvkey]
    rfl
  have hadjab : Adjacent g2 a b := by
    unfold Adjacent
    rw [hs2a]
    simp only [Option.getD_some]
    exact List.mem_append_right _ (List.mem_singleton_self b)
  have hadjba : Adjacent g2 b a := by
    unfold Adjacent
    show a ∈ (fmLookup b (adjInsert (adjInsert g._graph_structure a b) b a)).getD []
    rw [adjInsert_lookup_self]
    simp only [Option.getD_some]
    unfold sAdd
    split
    · assumption
    · exact List.mem_append_right _ (List.mem_singleton_self a)
  rw [hfull]
  by_cases hcnd : g2.current_time < t
  · rw [if_pos hcnd]
    refine ⟨rfl, g2, rfl, by rw [if_pos hcnd], hgwf2, hcheck2, hadjab, hadjba,
      rfl, rfl, ?_⟩
    exact (set_current_time_gwf g2 t hgwf2).1
  · rw [if_neg hcnd]
    exact ⟨rfl, g2, rfl, by rw [if_neg hcnd], hgwf2, hcheck2, hadjab, hadjba,
      rfl, rfl, hgwf2⟩

/-- Overwriting the stored value of the existing edge `{a, b}` with a
non-negative value preserves graph well-formedness. -/
theorem upd_gwf (g : TimeWindowGraph) (a b : ℕ) (t : Int)
    (pq' : indexedMinPQ (ℕ × ℕ)) (hwf : GWF g) (_hab : a ≠ b)
    {idx0 : ℕ}
    (hkey : fmLookup (nodePair a b) g._linkheap._key_to_index = some idx0)
    (ht : 0 ≤ t)
    (hwfp : indexedMinPQ.PQWF pq')
    (hhsp : pq'._heap_size = g._linkheap._heap_size)
    (hvkey : pq'.value (nodePair a b) = some t)
    (hvother : ∀ p, p ≠ nodePair a b → pq'.value p = g._linkheap.value p) :
    GWF ⟨g.window_size, g.num_links, g.num_nodes, g.current_time,
         g._graph_structure, pq'⟩ := by
  refine ⟨hwfp, ?_, hwf.2.2.1, ?_, ?_⟩
  · show g.num_links = (pq'._heap_size : Int)
    rw [hhsp]
    exact hwf.2.1
  · intro p hp
    obtain ⟨hnd, hall⟩ := hwf.2.2.2.1 p hp
    refine ⟨hnd, ?_⟩
    intro y hy
    obtain ⟨h1, h2, h3⟩ := hall y hy
    refine ⟨h1, h2, ?_⟩
    by_cases hnp : nodePair p.1 y = nodePair a b
    · rw [hnp, hvkey]
      simpa using ht
    · rw [hvother _ hnp]
      exact h3
  · intro q hq
    have hq1 : fmLookup q.1 pq'._key_to_index = some q.2 :=
      fmLookup_eq_some_of_mem hwfp.1.1 hq
    by_cases hqnp : q.1 = nodePair a b
    · obtain ⟨hlt, hmem⟩ :=
        hwf.2.2.2.2 (nodePair a b, idx0) (mem_of_fmLookup_eq_some hkey)
      rw [hqnp]
      exact ⟨hlt, hmem⟩
    · have hqsome : (g._linkheap.value q.1).isSome := by
        rw [← hvother q.1 hqnp, value_isSome_iff]
        rw [hq1]
        rfl
      rw [value_isSome_iff] at hqsome
      obtain ⟨idx', hidx'⟩ := Option.isSome_iff_exists.mp hqsome
      exact hwf.2.2.2.2 (q.1, idx') (mem_of_fmLookup_eq_some hidx')

theorem update_link_of_neg (g : TimeWindowGraph) (a b : ℕ) (t : Int)
    (h : g.check_link a b < 0) : g.update_link a b t = (g, false) := by
  unfold update_link
  rw [if_pos h]

theorem update_link_spec (g : TimeWindowGraph) (a b : ℕ) (t : Int) (hwf : GWF g)
    (hpos : 0 ≤ g.check_link a b) (ht : 0 ≤ t) :
    (g.update_link a b t).2 = true ∧
    ∃ g1 : TimeWindowGraph,
      g1 = ⟨g.window_size, g.num_links, g.num_nodes, g.current_time,
            g._graph_structure, (g._linkheap.update (nodePair a b) t).1⟩ ∧
      (g.update_link a b t).1
        = (if g1.current_time < t then g1.set_current_time t else g1) ∧
      GWF g1 ∧
      g1.check_link a b = t ∧
      g1.num_links = g.num_links ∧
      g1.current_time = g.current_time ∧
      GWF (g.update_link a b t).1 := by
  obtain ⟨ha, hb, hab, hmem, hval⟩ := check_link_nonneg_spec g a b hpos
  have hidx : ∃ idx, fmLookup (nodePair a b) g._linkheap._key_to_index = some idx := by
    apply Option.isSome_iff_exists.mp
    rw [← value_isSome_iff, hval]
    rfl
  obtain ⟨idx, hidx⟩ := hidx
  obtain ⟨hres2, hwfp, hhsp, hvkey, hvother⟩ :=
    indexedMinPQ.update_spec g._linkheap (nodePair a b) t idx hwf.1 hidx
  set g1 : TimeWindowGraph :=
    ⟨g.window_size, g.num_links, g.num_nodes, g.current_time,
     g._graph_structure, (g._linkheap.update (nodePair a b) t).1⟩ with hg1
  have hfull : g.update_link a b t =
      ((if g1.current_time < t then g1.set_current_time t else g1), true) := by
    unfold update_link
    rw [if_neg (by omega)]
    dsimp only
    rw [show (if a < b then (a, b) else (b, a)) = nodePair a b from rfl]
    rw [hres2]
    rw [if_pos rfl]
  have hgwf1 : GWF g1 :=
    upd_gwf g a b t _ hwf hab hidx ht hwfp hhsp hvkey hvother
  have hcheck1 : g1.check_link a b = t := by
    rw [check_link_eq g1 a b ha hb hab]
    rw [if_pos hmem]
    show (g1._linkheap.value (nodePair a b)).getD (-1) = t
    rw [show g1._linkheap = (g._linkheap.update (nodePair a b) t).1 from rfl, hvkey]
    rfl
  rw [hfull]
  refine ⟨rfl, g1, rfl, rfl, hgwf1, hcheck1, rfl, rfl, ?_⟩
  by_cases hcnd : g1.current_time < t
  · rw [if_pos hcnd]
    exact (set_current_time_gwf g1 t hgwf1).1
  · rw [if_neg hcnd]
    exact hgwf1

/-! #### `current_time` behaviour of every operation, on arbitrary states -/

theorem add_node_fields (g : TimeWindowGraph) (n : ℕ) :
    (g.add_node n).1.current_time = g.current_time ∧
    (g.add_node n).1.window_size = g.window_size := by
  unfold add_node
  split
  · exact ⟨rfl, rfl⟩
  · exact ⟨rfl, rfl⟩

theorem _remove_old_links_aux_fields :
    ∀ (fuel : ℕ) (g : TimeWindowGraph),
      (_remove_old_links_aux fuel g).current_time = g.current_time ∧
      (_remove_old_links_aux fuel g).window_size = g.window_size := by
  intro fuel
  induction fuel with
  | zero => intro g; exact ⟨rfl, rfl⟩
  | succ fuel ih =>
    intro g
    cases hpk : g._linkheap.peek_min with
    | none =>
      rw [_remove_old_links_aux_succ_nopeek fuel g hpk]
      exact ⟨rfl, rfl⟩
    | some kv =>
      obtain ⟨k, t⟩ := kv
      by_cases hc : t ≤ g.current_time - g.window_size
      · rcases hrm : g.remove_min_link with ⟨g1, r⟩
        have hg1f : g1.current_time = g.current_time ∧
            g1.window_size = g.window_size := by
          have := remove_min_link_fields g
          rw [hrm] at this
          exact this
        cases r with
        | none =>
          rw [_remove_old_links_aux_succ_fail fuel g g1 k t hpk hc hrm]
          exact hg1f
        | some p =>
          obtain ⟨⟨n1, n2⟩, t'⟩ := p
          rw [_remove_old_links_aux_succ_pop fuel g g1 k t n1 n2 t' hpk hc hrm]
          dsimp only
          set g2 := if ((fmLookup n1 g1._graph_structure).getD []) = []
                    then (g1.remove_node n1).1 else g1 with hg2
          have hg2f : g2.current_time = g.current_time ∧
              g2.window_size = g.window_size := by
            rw [hg2]
            split
            · obtain ⟨ha1, ha2⟩ := remove_node_fields g1 n1
              exact ⟨by rw [ha1, hg1f.1], by rw [ha2, hg1f.2]⟩
            · exact hg1f
          set g3 := if ((fmLookup n2 g2._graph_structure).getD []) = []
                    then (g2.remove_node n2).1 else g2 with hg3
          have hg3f : g3.current_time = g.current_time ∧
              g3.window_size = g.window_size := by
            rw [hg3]
            split
            · obtain ⟨ha1, ha2⟩ := remove_node_fields g2 n2
              exact ⟨by rw [ha1, hg2f.1], by rw [ha2, hg2f.2]⟩
            · exact hg2f
          by_cases hz : g3.num_links = 0
          · rw [if_pos hz]
            exact hg3f
          · rw [if_neg hz]
            obtain ⟨hb1, hb2⟩ := ih g3
            exact ⟨by rw [hb1, hg3f.1], by rw [hb2, hg3f.2]⟩
      · rw [_remove_old_links_aux_succ_stop fuel g k t hpk hc]
        exact ⟨rfl, rfl⟩

theorem _remove_old_links_fields (g : TimeWindowGraph) :
    g._remove_old_links.current_time = g.current_time ∧
    g._remove_old_links.window_size = g.window_size := by
  unfold _remove_old_links
  split
  · exact ⟨rfl, rfl⟩
  · exact _remove_old_links_aux_fields _ g

theorem set_current_time_fields (g : TimeWindowGraph) (t : Int) :
    (g.set_current_time t).current_time
      = (if 0 ≤ t then t else g.current_time) ∧
    (g.set_current_time t).window_size = g.window_size := by
  unfold set_current_time
  by_cases h0 : 0 ≤ t
  · rw [if_pos h0, if_pos h0]
    dsimp only
    split
    · obtain ⟨h1, h2⟩ := _remove_old_links_fields
        { g with current_time := t }
      exact ⟨h1, h2⟩
    · exact ⟨rfl, rfl⟩
  · rw [if_neg h0, if_neg h0]
    exact ⟨rfl, rfl⟩

theorem set_current_time_ge (g : TimeWindowGraph) (t : Int)
    (h : g.current_time ≤ t) :
    g.current_time ≤ (g.set_current_time t).current_time := by
  obtain ⟨h1, _⟩ := set_current_time_fields g t
  rw [h1]
  split
  · exact h
  · exact le_refl _

theorem add_link_current_mono (g : TimeWindowGraph) (a b : ℕ) (t : Int) :
    g.current_time ≤ (g.add_link a b t).1.current_time := by
  unfold add_link
  dsimp only
  repeat' split
  all_goals first
    | exact le_refl _
    | (apply set_current_time_ge
       show g.current_time ≤ t
       omega)

/-- Bookkeeping for one pass of the eviction loop: popping the minimum
link and pruning freshly isolated endpoints removes exactly one link,
keeps the graph well-formed, does not touch the clock, and leaves every
other edge (adjacency and stored timestamp) in place. -/
theorem evict_body_spec (g : TimeWindowGraph) (hwf : GWF g) (hnl : g.num_links ≠ 0) :
    ∃ (n1 n2 : ℕ) (g1 : TimeWindowGraph),
      g.remove_min_link = (g1, some ((n1, n2), arrGet g._linkheap._array 1)) ∧
      n1 < n2 ∧
      g._linkheap.value (n1, n2) = some (arrGet g._linkheap._array 1) ∧
      (∀ g2 g3 : TimeWindowGraph,
        g2 = (if ((fmLookup n1 g1._graph_structure).getD []) = []
              then (g1.remove_node n1).1 else g1) →
        g3 = (if ((fmLookup n2 g2._graph_structure).getD []) = []
              then (g2.remove_node n2).1 else g2) →
        GWF g3 ∧ g3.num_links = g.num_links - 1 ∧
        g3.current_time = g.current_time ∧ g3.window_size = g.window_size ∧
        g3._linkheap.value (n1, n2) = none ∧
        (∀ p, p ≠ (n1, n2) → g3._linkheap.value p = g._linkheap.value p) ∧
        (∀ x y, Adjacent g x y → nodePair x y ≠ (n1, n2) → Adjacent g3 x y)) := by
  obtain ⟨n1, n2, la, lb, hlt, hla, hadj, hlb, hsym, hrml, hgwf1, hvalk, hvkey, hvother⟩ :=
    remove_min_link_spec g hwf hnl
  have hne12 : n1 ≠ n2 := by omega
  refine ⟨n1, n2, g.remove_min_link.1, ?_, hlt, hvalk, ?_⟩
  · rw [hrml]
  · intro g2 g3 hg2 hg3
    rw [hrml] at hgwf1 hvkey hvother
    simp only at hgwf1 hvkey hvother
    set g1 : TimeWindowGraph :=
      ⟨g.window_size, g.num_links - 1, g.num_nodes, g.current_time,
       adjErase (adjErase g._graph_structure n1 n2) n2 n1,
       g._linkheap.pop_min.1⟩ with hg1
    have hrml1 : g.remove_min_link.1 = g1 := by rw [hrml]
    rw [hrml1] at hg2
    -- adjacency lookups after the unlink
    have hl1a : fmLookup n1 g1._graph_structure = some (la.erase n2) := by
      show fmLookup n1 (adjErase (adjErase g._graph_structure n1 n2) n2 n1) = _
      rw [adjErase_lookup_ne _ _ _ _ hne12, adjErase_lookup_self, hla,
          Option.getD_some]
    have hl1b : fmLookup n2 g1._graph_structure = some (lb.erase n1) := by
      show fmLookup n2 (adjErase (adjErase g._graph_structure n1 n2) n2 n1) = _
      rw [adjErase_lookup_self,
          adjErase_lookup_ne _ _ _ _ (fun hc => hne12 hc.symm), hlb,
          Option.getD_some]
    have hl1x : ∀ x, x ≠ n1 → x ≠ n2 →
        fmLookup x g1._graph_structure = fmLookup x g._graph_structure := by
      intro x hx1 hx2
      show fmLookup x (adjErase (adjErase g._graph_structure n1 n2) n2 n1) = _
      rw [adjErase_lookup_ne _ _ _ _ hx2, adjErase_lookup_ne _ _ _ _ hx1]
    -- step to g2
    have hg2facts : GWF g2 ∧ g2._linkheap = g1._linkheap ∧
        g2.num_links = g1.num_links ∧ g2.current_time = g1.current_time ∧
        g2.window_size = g1.window_size ∧
        (∀ x, x ≠ n1 → fmLookup x g2._graph_structure
          = fmLookup x g1._graph_structure) := by
      rw [hg2]
      split
      · rename_i hcond
        rw [hl1a, Option.getD_some] at hcond
        have hiso : fmLookup n1 g1._graph_structure = some [] := by
          rw [hl1a, hcond]
        rw [remove_node_isolated_eq g1 n1 hiso]
        refine ⟨?_, rfl, rfl, rfl, rfl, ?_⟩
        · exact erase_isolated_gwf g1 n1 hgwf1 hiso
        · intro x hx
          show fmLookup x (fmErase n1 g1._graph_structure) = _
          rw [fmLookup_erase_ne _ _ _ hx]
      · exact ⟨hgwf1, rfl, rfl, rfl, rfl, fun x _ => rfl⟩
    obtain ⟨hgwf2, h2heap, h2links, h2cur, h2win, h2look⟩ := hg2facts
    -- lookup of n2 in g2
    have hl2b : fmLookup n2 g2._graph_structure = some (lb.erase n1) := by
      rw [h2look n2 (fun hc => hne12 hc.symm)]
      exact hl1b
    -- step to g3
    have hg3facts : GWF g3 ∧ g3._linkheap = g2._linkheap ∧
        g3.num_links = g2.num_links ∧ g3.current_time = g2.current_time ∧
        g3.window_size = g2.window_size ∧
        (∀ x, x ≠ n2 → fmLookup x g3._graph_structure
          = fmLookup x g2._graph_structure) := by
      rw [hg3]
      split
      · rename_i hcond
        rw [hl2b, Option.getD_some] at hcond
        have hiso : fmLookup n2 g2._graph_structure = some [] := by
          rw [hl2b, hcond]
        rw [remove_node_isolated_eq g2 n2 hiso]
        refine ⟨?_, rfl, rfl, rfl, rfl, ?_⟩
        · exact erase_isolated_gwf g2 n2 hgwf2 hiso
        · intro x hx
          show fmLookup x (fmErase n2 g2._graph_structure) = _
          rw [fmLookup_erase_ne _ _ _ hx]
      · exact ⟨hgwf2, rfl, rfl, rfl, rfl, fun x _ => rfl⟩
    obtain ⟨hgwf3, h3heap, h3links, h3cur, h3win, h3look⟩ := hg3facts
    refine ⟨hgwf3, ?_, ?_, ?_, ?_, ?_, ?_⟩
    · rw [h3links, h2links]
    · rw [h3cur, h2cur]
    · rw [h3win, h2win]
    · rw [h3heap, h2heap]
      exact hvkey
    · intro p hp
      rw [h3heap, h2heap]
      exact hvother p hp
    · -- surviving edges keep their adjacency
      intro x y hxy hpne
      unfold Adjacent at hxy ⊢
      -- first, membership survives the unlink into g1
      have hxy1 : y ∈ (fmLookup x g1._graph_structure).getD [] := by
        by_cases hx1 : x = n1
        · subst hx1
          have hyn2 : y ≠ n2 := by
            intro hc
            subst hc
            exact hpne (nodePair_eq_of_lt hlt)
          rw [hl1a]
          rw [hla, Option.getD_some] at hxy
          simp only [Option.getD_some]
          exact (List.Nodup.mem_erase_iff (hwf.adj_nodup hla)).mpr ⟨hyn2, hxy⟩
        · by_cases hx2 : x = n2
          · subst hx2
            have hyn1 : y ≠ n1 := by
              intro hc
              subst hc
              apply hpne
              rw [nodePair_comm (fun hc' => hne12 hc'.symm)]
              exact nodePair_eq_of_lt hlt
            rw [hl1b]
            rw [hlb, Option.getD_some] at hxy
            simp only [Option.getD_some]
            exact (List.Nodup.mem_erase_iff (hwf.adj_nodup hlb)).mpr ⟨hyn1, hxy⟩
          · rw [hl1x x hx1 hx2]
            exact hxy
      -- it also survives the two conditional node removals
      have hxn1 : x ≠ n1 ∨ fmLookup n1 g1._graph_structure ≠ some [] := by
        by_cases hx1 : x = n1
        · subst hx1
          right
          intro hc
          rw [hc] at hxy1
          simp at hxy1
        · exact Or.inl hx1
      have hxy2 : y ∈ (fmLookup x g2._graph_structure).getD [] := by
        by_cases hx1 : x = n1
        · subst hx1
          rcases hxn1 with h | h
          · exact absurd rfl h
          · rw [hg2]
            rw [if_neg (by
              intro hc
              apply h
              rw [hl1a] at hc ⊢
              simp only [Option.getD_some] at hc
              rw [hc])]
            exact hxy1
        · rw [h2look x hx1]
          exact hxy1
      by_cases hx2 : x = n2
      · have h2some : fmLookup n2 g2._graph_structure ≠ some [] := by
          intro hc
          rw [← hx2] at hc
          rw [hc] at hxy2
          simp at hxy2
        rw [hg3]
        rw [if_neg (by
          intro hc
          apply h2some
          rw [hl2b] at hc ⊢
          simp only [Option.getD_some] at hc
          rw [hc])]
        exact hxy2
      · rw [h3look x hx2]
        exact hxy2

/-- On a well-formed graph with no links the heap is empty, so the
eviction loop is the identity at any fuel. -/
theorem _remove_old_links_aux_of_no_links (fuel : ℕ) (g : TimeWindowGraph)
    (hwf : GWF g) (h0 : g.num_links = 0) :
    _remove_old_links_aux fuel g = g := by
  cases fuel with
  | zero => rfl
  | succ f =>
    apply _remove_old_links_aux_succ_nopeek
    have hhs : g._linkheap._heap_size = 0 := by
      have h21 := hwf.2.1
      omega
    unfold indexedMinPQ.peek_min
    rw [if_pos hhs]

/-- Fuel stability of the eviction loop: on a well-formed graph, any fuel
of at least `num_links` computes the same result, so the loop finishes
within `num_links` iterations (each pass removes exactly one link). -/
theorem _remove_old_links_aux_stable :
    ∀ (k : ℕ) (g : TimeWindowGraph) (fuel : ℕ), GWF g →
      g.num_links.toNat ≤ k → k ≤ fuel →
      _remove_old_links_aux fuel g = _remove_old_links_aux k g := by
  intro k
  induction k with
  | zero =>
    intro g fuel hwf hk hf
    have h21 := hwf.2.1
    have h0 : g.num_links = 0 := by omega
    rw [_remove_old_links_aux_of_no_links fuel g hwf h0,
        _remove_old_links_aux_of_no_links 0 g hwf h0]
  | succ k ih =>
    intro g fuel hwf hk hf
    obtain ⟨f, rfl⟩ : ∃ f, fuel = f + 1 := ⟨fuel - 1, by omega⟩
    have hfk : k ≤ f := by omega
    cases hpk : g._linkheap.peek_min with
    | none =>
      rw [_remove_old_links_aux_succ_nopeek f g hpk,
          _remove_old_links_aux_succ_nopeek k g hpk]
    | some kt =>
      obtain ⟨key, t⟩ := kt
      by_cases hc : t ≤ g.current_time - g.window_size
      · have hhs : g._linkheap._heap_size ≠ 0 := by
          intro h0
          unfold indexedMinPQ.peek_min at hpk
          rw [if_pos h0] at hpk
          exact Option.noConfusion hpk
        have hnl : g.num_links ≠ 0 := by
          have h21 := hwf.2.1
          omega
        obtain ⟨n1, n2, g1, hrml, hlt, hval, hbody⟩ := evict_body_spec g hwf hnl
        rw [_remove_old_links_aux_succ_pop f g g1 key t n1 n2 _ hpk hc hrml,
            _remove_old_links_aux_succ_pop k g g1 key t n1 n2 _ hpk hc hrml]
        dsimp only
        set g2 := (if ((fmLookup n1 g1._graph_structure).getD []) = []
                   then (g1.remove_node n1).1 else g1) with hg2
        set g3 := (if ((fmLookup n2 g2._graph_structure).getD []) = []
                   then (g2.remove_node n2).1 else g2) with hg3
        obtain ⟨hgwf3, hlinks3, -, -, -, -, -⟩ := hbody g2 g3 hg2 hg3
        by_cases hz : g3.num_links = 0
        · rw [if_pos hz]
          rw [if_pos hz]
        · rw [if_neg hz]
          rw [if_neg hz]
          apply ih g3 f hgwf3 ?_ hfk
          have h21 := hwf.2.1
          omega
      · rw [_remove_old_links_aux_succ_stop f g key t hpk hc,
            _remove_old_links_aux_succ_stop k g key t hpk hc]

/-- An edge whose stored timestamp lies strictly above the eviction
threshold survives the eviction loop: its adjacency entries and its
stored timestamp are unchanged. -/
theorem evict_aux_edge_survives :
    ∀ (fuel : ℕ) (g : TimeWindowGraph) (a b : ℕ) (v : Int), GWF g →
      Adjacent g a b → Adjacent g b a →
      g._linkheap.value (nodePair a b) = some v →
      g.current_time - g.window_size < v →
      Adjacent (_remove_old_links_aux fuel g) a b ∧
      Adjacent (_remove_old_links_aux fuel g) b a ∧
      (_remove_old_links_aux fuel g)._linkheap.value (nodePair a b)
        = some v := by
  intro fuel
  induction fuel with
  | zero =>
    intro g a b v hwf hab hba hval hthr
    exact ⟨hab, hba, hval⟩
  | succ f ih =>
    intro g a b v hwf hab hba hval hthr
    cases hpk : g._linkheap.peek_min with
    | none =>
      rw [_remove_old_links_aux_succ_nopeek f g hpk]
      exact ⟨hab, hba, hval⟩
    | some kt =>
      obtain ⟨key, t⟩ := kt
      by_cases hc : t ≤ g.current_time - g.window_size
      · have hhs : g._linkheap._heap_size ≠ 0 := by
          intro h0
          unfold indexedMinPQ.peek_min at hpk
          rw [if_pos h0] at hpk
          exact Option.noConfusion hpk
        have hnl : g.num_links ≠ 0 := by
          have h21 := hwf.2.1
          omega
        have ht : t = arrGet g._linkheap._array 1 := by
          obtain ⟨key', hk', hpk', hv', hi'⟩ :=
            indexedMinPQ.peek_min_spec g._linkheap hwf.1.1 hhs
          rw [hpk] at hpk'
          exact congrArg Prod.snd (Option.some.inj hpk')
        obtain ⟨n1, n2, g1, hrml, hlt, hval1, hbody⟩ :=
          evict_body_spec g hwf hnl
        have hpne : nodePair a b ≠ (n1, n2) := by
          intro hc'
          rw [hc', hval1] at hval
          have hv1 := Option.some.inj hval
          omega
        rw [_remove_old_links_aux_succ_pop f g g1 key t n1 n2 _ hpk hc hrml]
        dsimp only
        set g2 := (if ((fmLookup n1 g1._graph_structure).getD []) = []
                   then (g1.remove_node n1).1 else g1) with hg2
        set g3 := (if ((fmLookup n2 g2._graph_structure).getD []) = []
                   then (g2.remove_node n2).1 else g2) with hg3
        obtain ⟨hgwf3, hlinks3, hcur3, hwin3, hvnone, hvother, hadjpres⟩ :=
          hbody g2 g3 hg2 hg3
        have hane : a ≠ b := by
          cases hla : fmLookup a g._graph_structure with
          | none =>
            unfold Adjacent at hab
            rw [hla] at hab
            simp at hab
          | some la =>
            unfold Adjacent at hab
            rw [hla, Option.getD_some] at hab
            exact (hwf.adj_spec hla hab).1
        have hpne' : nodePair b a ≠ (n1, n2) := by
          rw [nodePair_comm (fun hc' => hane hc'.symm)]
          exact hpne
        have hab3 : Adjacent g3 a b := hadjpres a b hab hpne
        have hba3 : Adjacent g3 b a := hadjpres b a hba hpne'
        have hval3 : g3._linkheap.value (nodePair a b) = some v := by
          rw [hvother (nodePair a b) hpne]
          exact hval
        by_cases hz : g3.num_links = 0
        · rw [if_pos hz]
          exact ⟨hab3, hba3, hval3⟩
        · rw [if_neg hz]
          apply ih g3 a b v hgwf3 hab3 hba3 hval3
          rw [hcur3, hwin3]
          exact hthr
      · rw [_remove_old_links_aux_succ_stop f g key t hpk hc]
        exact ⟨hab, hba, hval⟩

/-- `check_link` computed from adjacency and the stored heap value. -/
theorem check_link_of_adj (g : TimeWindowGraph) (a b : ℕ) (v : Int)
    (hane : a ≠ b) (hab : Adjacent g a b) (hba : Adjacent g b a)
    (hv : g._linkheap.value (nodePair a b) = some v) :
    g.check_link a b = v := by
  have hna : g.check_node a = true := by
    unfold Adjacent at hab
    unfold check_node
    cases hl : fmLookup a g._graph_structure with
    | none => rw [hl] at hab; simp at hab
    | some la => rfl
  have hnb : g.check_node b = true := by
    unfold Adjacent at hba
    unfold check_node
    cases hl : fmLookup b g._graph_structure with
    | none => rw [hl] at hba; simp at hba
    | some lb => rfl
  rw [check_link_eq g a b hna hnb hane,
      if_pos (show b ∈ (fmLookup a g._graph_structure).getD [] from hab), hv]
  rfl

/-- An edge above the eviction threshold survives `_remove_old_links`. -/
theorem _remove_old_links_edge_survives (g : TimeWindowGraph) (a b : ℕ)
    (v : Int) (hwf : GWF g) (hab : Adjacent g a b) (hba : Adjacent g b a)
    (hval : g._linkheap.value (nodePair a b) = some v)
    (hthr : g.current_time - g.window_size < v) :
    Adjacent g._remove_old_links a b ∧ Adjacent g._remove_old_links b a ∧
    g._remove_old_links._linkheap.value (nodePair a b) = some v := by
  unfold _remove_old_links
  split
  · exact ⟨hab, hba, hval⟩
  · exact evict_aux_edge_survives _ g a b v hwf hab hba hval hthr

/-- An edge above both the old and the new eviction thresholds survives
`set_current_time`. -/
theorem set_current_time_edge_survives (g : TimeWindowGraph) (t : Int)
    (a b : ℕ) (v : Int) (hwf : GWF g)
    (hab : Adjacent g a b) (hba : Adjacent g b a)
    (hval : g._linkheap.value (nodePair a b) = some v)
    (hthr2 : t - g.window_size < v) :
    Adjacent (g.set_current_time t) a b ∧
    Adjacent (g.set_current_time t) b a ∧
    (g.set_current_time t)._linkheap.value (nodePair a b) = some v := by
  unfold set_current_time
  split
  · dsimp only
    have hwf' : GWF { g with current_time := t } := hwf
    split
    · exact _remove_old_links_edge_survives _ a b v hwf' hab hba hval hthr2
    · exact ⟨hab, hba, hval⟩
  · exact ⟨hab, hba, hval⟩

/-- The fresh graph is well-formed. -/
theorem init_gwf (w : Int) : GWF (TimeWindowGraph.init w) := by
  refine ⟨(by decide : indexedMinPQ.PQWF (indexedMinPQ.init (ℕ × ℕ))), rfl,
          (by unfold fmKeysNodup; exact List.nodup_nil :
            fmKeysNodup ([] : List (ℕ × List ℕ))), ?_, ?_⟩
  · intro p hp
    exact absurd hp (List.not_mem_nil p)
  · intro q hq
    exact absurd hq (List.not_mem_nil q)

/-- Every public operation preserves well-formedness. -/
theorem step_gwf (g : TimeWindowGraph) (op : Op) (hwf : GWF g) :
    GWF (step g op) := by
  cases op with
  | addNode n => exact add_node_gwf g n hwf
  | removeNode n => exact remove_node_gwf_any g n hwf
  | addLink n1 n2 t =>
    show GWF (g.add_link n1 n2 (t : Int)).1
    by_cases h : ¬ g.check_node n1 ∨ ¬ g.check_node n2 ∨ n1 = n2 ∨
        0 ≤ g.check_link n1 n2
    · rw [add_link_of_fail g n1 n2 _ h]
      exact hwf
    · push_neg at h
      obtain ⟨h1, h2, h3, h4⟩ := h
      obtain ⟨-, g2, -, -, -, -, -, -, -, -, hfin⟩ :=
        add_link_spec g n1 n2 (t : Int) hwf h1 h2 h3 h4 (by omega)
      exact hfin
  | updateLink n1 n2 t =>
    show GWF (g.update_link n1 n2 (t : Int)).1
    by_cases h : g.check_link n1 n2 < 0
    · rw [update_link_of_neg g n1 n2 _ h]
      exact hwf
    · obtain ⟨-, g1, -, -, -, -, -, -, hfin⟩ :=
        update_link_spec g n1 n2 (t : Int) hwf (by omega) (by omega)
      exact hfin
  | removeLink n1 n2 =>
    show GWF (g.remove_link n1 n2).1
    by_cases h : g.check_link n1 n2 < 0
    · rw [remove_link_of_neg g n1 n2 h]
      exact hwf
    · exact (remove_link_spec g n1 n2 hwf (by omega)).2.1
  | removeMinLink =>
    show GWF g.remove_min_link.1
    by_cases h : g.num_links = 0
    · rw [remove_min_link_of_zero g h]
      exact hwf
    · obtain ⟨n1, n2, la, lb, -, -, -, -, -, -, hfin, -, -, -⟩ :=
        remove_min_link_spec g hwf h
      exact hfin
  | setCurrentTime t => exact (set_current_time_gwf g t hwf).1

/-- Well-formedness is preserved along any fold of public operations. -/
theorem foldl_step_gwf :
    ∀ (l : List Op) (g : TimeWindowGraph), GWF g → GWF (l.foldl step g) := by
  intro l
  induction l with
  | nil => intro g hg; exact hg
  | cons op l ih =>
    intro g hg
    exact ih (step g op) (step_gwf g op hg)

/-- Every reachable graph state is well-formed. -/
theorem run_gwf (ops : List Op) : GWF (run ops) :=
  foldl_step_gwf ops _ (init_gwf 60)

/-- The fresh queue is well-formed (capacity 2, no entries). -/
theorem initPQ_wf (K : Type) [DecidableEq K] :
    indexedMinPQ.PQWF (indexedMinPQ.init K) := by
  refine ⟨⟨?_, ?_, ?_, ?_, ?_⟩, ?_⟩
  · unfold fmKeysNodup; exact List.nodup_nil
  · unfold fmKeysNodup; exact List.nodup_nil
  · intro p hp; exact absurd hp (List.not_mem_nil p)
  · intro p hp; exact absurd hp (List.not_mem_nil p)
  · intro i hi; exact (Nat.not_lt_zero i (List.mem_range.mp hi)).elim
  · exact le_refl 2

/-- Every public queue operation preserves well-formedness (hence the
capacity invariant of claim C10). -/
theorem stepPQ_wf {K : Type} [DecidableEq K] (pq : indexedMinPQ K)
    (op : PQOp K) (hwf : indexedMinPQ.PQWF pq) :
    indexedMinPQ.PQWF (stepPQ pq op) := by
  cases op with
  | add k v =>
    show indexedMinPQ.PQWF (pq.add k v).1
    cases h : fmLookup k pq._key_to_index with
    | none => exact (indexedMinPQ.add_spec pq k v hwf h).2.1
    | some i =>
      rw [indexedMinPQ.add_of_mem pq k v (by rw [h]; rfl)]
      exact hwf
  | remove k =>
    show indexedMinPQ.PQWF (pq.remove k).1
    cases h : fmLookup k pq._key_to_index with
    | none => rw [indexedMinPQ.remove_of_not_mem pq k h]; exact hwf
    | some i => exact (indexedMinPQ.remove_spec pq k i hwf h).2.1
  | update k v =>
    show indexedMinPQ.PQWF (pq.update k v).1
    cases h : fmLookup k pq._key_to_index with
    | none => rw [indexedMinPQ.update_of_not_mem pq k v h]; exact hwf
    | some i => exact (indexedMinPQ.update_spec pq k v i hwf h).2.1
  | popMin =>
    show indexedMinPQ.PQWF pq.pop_min.1
    by_cases h : pq._heap_size = 0
    · have hz : pq.pop_min = (pq, none) := by
        unfold indexedMinPQ.pop_min
        rw [if_pos h]
      rw [hz]
      exact hwf
    · obtain ⟨key, -, -, hfin, -, -, -⟩ := indexedMinPQ.pop_min_spec pq hwf h
      exact hfin

/-- Queue well-formedness along any fold of public queue operations. -/
theorem foldl_stepPQ_wf {K : Type} [DecidableEq K] :
    ∀ (l : List (PQOp K)) (pq : indexedMinPQ K), indexedMinPQ.PQWF pq →
      indexedMinPQ.PQWF (l.foldl stepPQ pq) := by
  intro l
  induction l with
  | nil => intro pq h; exact h
  | cons op l ih =>
    intro pq h
    exact ih (stepPQ pq op) (stepPQ_wf pq op h)

/-- Every reachable queue state is well-formed. -/
theorem runPQ_wf {K : Type} [DecidableEq K] (ops : List (PQOp K)) :
    indexedMinPQ.PQWF (runPQ ops) :=
  foldl_stepPQ_wf ops _ (initPQ_wf K)

theorem update_link_current_mono (g : TimeWindowGraph) (a b : ℕ) (t : Int) :
    g.current_time ≤ (g.update_link a b t).1.current_time := by
  unfold update_link
  dsimp only
  repeat' split
  all_goals first
    | exact le_refl _
    | (apply set_current_time_ge
       show g.current_time ≤ t
       omega)

/-! ### Claim theorems -/

/-- Adjacency is symmetric on well-formed graphs. -/
theorem gwf_adj_symm {g : TimeWindowGraph} (hwf : GWF g) {a b : ℕ}
    (h : Adjacent g a b) : Adjacent g b a := by
  unfold Adjacent at h ⊢
  cases hl : fmLookup a g._graph_structure with
  | none => rw [hl] at h; simp at h
  | some la =>
    rw [hl, Option.getD_some] at h
    exact (hwf.adj_spec hl h).2.2.1

/-- Queue operations exhibiting the missing sift-up in `remove`: seven
adds followed by removing the key at slot 4. -/
def pqBugOps : List (PQOp ℕ) :=
  [.add 1 0, .add 2 3, .add 3 1, .add 4 4, .add 5 5, .add 6 6, .add 7 2,
   .remove 4]

/-- Claim C1, refuted on a concrete input: after `remove`, which only
sifts down from the vacated slot, the pop sequence is `[0, 1, 3, 2, 5, 6]`
(3 before 2, not non-decreasing), and two pops later `peek_min` reports
priority 3 while key 7 still stores the smaller priority 2. -/
theorem remove_breaks_heap_order :
    popValues (runPQ pqBugOps) 6 = [0, 1, 3, 2, 5, 6] ∧
    ¬ List.Sorted (· ≤ ·) (popValues (runPQ pqBugOps) 6) ∧
    (runPQ (pqBugOps ++ [.popMin, .popMin])).peek_min = some (2, 3) ∧
    (runPQ (pqBugOps ++ [.popMin, .popMin])).value 7 = some 2 ∧
    (2 : Int) < 3 := by
  refine ⟨by decide, by decide, by decide, by decide, by decide⟩

/-- Graph operations after which the eviction loop leaves a stale edge:
the broken heap order makes `peek_min` report timestamp 3 while the
stored minimum is 2, so the loop stops early. -/
def staleEvictionOps : List Op :=
  [.addNode 1, .addNode 2, .addNode 3, .addNode 4, .addNode 5,
   .addLink 1 2 0, .addLink 1 3 3, .addLink 1 4 1, .addLink 1 5 4,
   .addLink 2 3 5, .addLink 2 4 6, .addLink 2 5 2,
   .removeLink 1 5, .removeMinLink, .removeMinLink, .setCurrentTime 62]

/-- Claim C2, refuted on a concrete input: after `setCurrentTime 62`
completes (window 60), the edge `{2, 5}` with timestamp 2 is still
stored although `2 ≤ 62 - 60`. -/
theorem eviction_leaves_stale_edge :
    (run staleEvictionOps).current_time = 62 ∧
    (run staleEvictionOps).window_size = 60 ∧
    (run staleEvictionOps).check_link 2 5 = 2 ∧
    (run staleEvictionOps).check_link 2 5
      ≤ (run staleEvictionOps).current_time
        - (run staleEvictionOps).window_size := by
  refine ⟨by decide, by decide, by decide, by decide⟩

/-- Clock regression witness: `setCurrentTime 3` after `setCurrentTime 5`
drops `current_time` from 5 to 3. -/
theorem current_time_decreases_cex :
    (run [Op.setCurrentTime 5]).current_time = 5 ∧
    (run [Op.setCurrentTime 5, Op.setCurrentTime 3]).current_time = 3 ∧
    run [Op.setCurrentTime 5, Op.setCurrentTime 3]
      = step (run [Op.setCurrentTime 5]) (Op.setCurrentTime 3) ∧
    (3 : Int) < 5 := by
  refine ⟨by decide, by decide, rfl, by decide⟩

/-- Claim C3, amended: `current_time` never decreases under any public
operation other than a `setCurrentTime` whose nonnegative argument is
below the current clock (the code sets the clock to any nonnegative
argument, smaller ones included). -/
theorem current_time_mono_step (g : TimeWindowGraph) (op : Op)
    (h : ∀ t, op = Op.setCurrentTime t → t < 0 ∨ g.current_time ≤ t) :
    g.current_time ≤ (step g op).current_time := by
  cases op with
  | addNode n => exact le_of_eq (add_node_fields g n).1.symm
  | removeNode n => exact le_of_eq (remove_node_fields g n).1.symm
  | addLink n1 n2 t => exact add_link_current_mono g n1 n2 (t : Int)
  | updateLink n1 n2 t => exact update_link_current_mono g n1 n2 (t : Int)
  | removeLink n1 n2 => exact le_of_eq (remove_link_fields g n1 n2).1.symm
  | removeMinLink => exact le_of_eq (remove_min_link_fields g).1.symm
  | setCurrentTime t =>
    rcases h t rfl with hneg | hle
    · have hf := (set_current_time_fields g t).1
      rw [if_neg (by omega)] at hf
      exact le_of_eq hf.symm
    · exact set_current_time_ge g t hle

/-- Witness for the amended C3 theorem at a concrete operation. -/
theorem current_time_mono_step_witness :
    (run []).current_time ≤ (step (run []) (Op.addNode 1)).current_time :=
  current_time_mono_step (run []) (Op.addNode 1)
    (fun t h => Op.noConfusion h)

/-- Claim C4: after every finite sequence of public operations,
`num_links` equals the queue's size and adjacency is symmetric. -/
theorem links_count_and_adjacency_symm (ops : List Op) (a b : ℕ) :
    (run ops).num_links = ((run ops)._linkheap.size : Int) ∧
    (Adjacent (run ops) a b ↔ Adjacent (run ops) b a) := by
  have hwf := run_gwf ops
  exact ⟨hwf.2.1, ⟨fun h => gwf_adj_symm hwf h, fun h => gwf_adj_symm hwf h⟩⟩

/-- Claim C5: `add_link` fails (unchanged state) when a node is absent,
the nodes coincide or the edge exists; otherwise it inserts the canonical
pair into the queue, links the adjacency sets symmetrically, increments
`num_links`, and only afterwards — when the timestamp exceeds the clock —
advances the clock on the state that already holds the new edge. -/
theorem add_link_inserts_then_advances (g : TimeWindowGraph) (a b : ℕ)
    (t : Int) (hwf : GWF g) (ht : 0 ≤ t) :
    ((¬ g.check_node a ∨ ¬ g.check_node b ∨ a = b ∨ 0 ≤ g.check_link a b) →
      g.add_link a b t = (g, false)) ∧
    (g.check_node a = true → g.check_node b = true → a ≠ b →
      g.check_link a b < 0 →
      (g.add_link a b t).2 = true ∧
      ∃ g2 : TimeWindowGraph,
        g2 = ⟨g.window_size, g.num_links + 1, g.num_nodes, g.current_time,
              adjInsert (adjInsert g._graph_structure a b) b a,
              (g._linkheap.add (nodePair a b) t).1⟩ ∧
        (g.add_link a b t).1
          = (if g2.current_time < t then g2.set_current_time t else g2) ∧
        g2.check_link a b = t ∧
        Adjacent g2 a b ∧ Adjacent g2 b a ∧
        g2.num_links = g.num_links + 1 ∧
        g2.current_time = g.current_time) := by
  constructor
  · intro h
    exact add_link_of_fail g a b t h
  · intro ha hb hab hneg
    obtain ⟨h1, g2, h2, h3, h4, h5, h6, h7, h8, h9, h10⟩ :=
      add_link_spec g a b t hwf ha hb hab hneg ht
    exact ⟨h1, g2, h2, h3, h5, h6, h7, h8, h9⟩

/-- Witness for C5 at a concrete graph and edge. -/
theorem add_link_inserts_then_advances_witness :
    ((run [Op.addNode 1, Op.addNode 2]).add_link 1 2 5).2 = true :=
  ((add_link_inserts_then_advances (run [Op.addNode 1, Op.addNode 2]) 1 2 5
      (by decide) (by decide)).2 (by decide) (by decide) (by decide)
      (by decide)).1

/-- Graph with a pre-existing edge `{3, 4}` at timestamp 0 whose eviction
is triggered by a later `add_link` with a large timestamp. -/
def addLinkEvictsOps : List Op :=
  [.addNode 1, .addNode 2, .addNode 3, .addNode 4, .addLink 3 4 0]

/-- Claim C6, refuted on a concrete input: nodes 1 and 2 exist and share
no edge, yet `add_link 1 2 100` followed by `remove_link 1 2` does not
restore the state: the clock advance inside `add_link` evicts the
unrelated edge `{3, 4}` and removes its isolated endpoints. -/
theorem add_remove_link_roundtrip_cex :
    (run addLinkEvictsOps).check_node 1 = true ∧
    (run addLinkEvictsOps).check_node 2 = true ∧
    (run addLinkEvictsOps).check_link 1 2 < 0 ∧
    (run addLinkEvictsOps).num_links = 1 ∧
    (((run addLinkEvictsOps).add_link 1 2 100).1.remove_link 1 2).1.num_links
      = 0 ∧
    fmLookup 3 (run addLinkEvictsOps)._graph_structure = some [4] ∧
    fmLookup 3 ((((run addLinkEvictsOps).add_link 1 2 100).1.remove_link
      1 2).1._graph_structure) = none := by
  refine ⟨by decide, by decide, by decide, by decide, by decide, by decide,
    by decide⟩

/-- Claim C6, amended: for existing nodes `a ≠ b` with no pre-existing
edge and a timestamp that does not advance the clock, `add_link` followed
by `remove_link` restores the adjacency sets and the link count. -/
theorem add_remove_link_roundtrip (g : TimeWindowGraph) (a b : ℕ) (t : Int)
    (hwf : GWF g) (ha : g.check_node a = true) (hb : g.check_node b = true)
    (hab : a ≠ b) (hneg : g.check_link a b < 0) (ht : 0 ≤ t)
    (hcur : t ≤ g.current_time) :
    (((g.add_link a b t).1.remove_link a b).1.num_links = g.num_links) ∧
    (∀ x, fmLookup x (((g.add_link a b t).1.remove_link a b).1._graph_structure)
      = fmLookup x g._graph_structure) := by
  obtain ⟨la, hla⟩ := Option.isSome_iff_exists.mp (by simpa [check_node] using ha)
  obtain ⟨lb, hlb⟩ := Option.isSome_iff_exists.mp (by simpa [check_node] using hb)
  obtain ⟨hnadj, hnokey⟩ := check_link_neg_spec hwf ha hb hab hneg
  obtain ⟨h1, g2, h2, h3, h4, h5, h6, h7, h8, h9, h10⟩ :=
    add_link_spec g a b t hwf ha hb hab hneg ht
  have hres : (g.add_link a b t).1 = g2 := by
    rw [h3, if_neg (by rw [h9]; omega)]
  have hpos2 : 0 ≤ g2.check_link a b := by rw [h5]; exact ht
  obtain ⟨r1, r2, r3, r4, r5, r6, r7, r8, r9, r10, r11⟩ :=
    remove_link_spec g2 a b h4 hpos2
  rw [hres]
  have hbla : b ∉ la := by
    have h := hnadj
    rw [hla, Option.getD_some] at h
    exact h
  constructor
  · rw [r3, h8]
    omega
  · intro x
    rcases eq_or_ne x a with hxa | hxa
    · rw [hxa, r7]
      have hl2a : fmLookup a g2._graph_structure = some (sAdd la b) := by
        rw [h2]
        show fmLookup a (adjInsert (adjInsert g._graph_structure a b) b a) = _
        rw [adjInsert_lookup_ne _ _ _ _ hab, adjInsert_lookup_self, hla,
            Option.getD_some]
      rw [hl2a, Option.getD_some, hla]
      congr 1
      unfold sAdd
      rw [if_neg hbla, List.erase_append_right _ hbla, List.erase_cons_head,
          List.append_nil]
    · rcases eq_or_ne x b with hxb | hxb
      · rw [hxb, r8]
        have halb : a ∉ lb := by
          intro hmem
          exact hnadj (hwf.adj_spec hlb hmem).2.2.1
        have hl2b : fmLookup b g2._graph_structure = some (sAdd lb a) := by
          rw [h2]
          show fmLookup b (adjInsert (adjInsert g._graph_structure a b) b a) = _
          rw [adjInsert_lookup_self,
              adjInsert_lookup_ne _ _ _ _ (fun hc => hab hc.symm), hlb,
              Option.getD_some]
        rw [hl2b, Option.getD_some, hlb]
        congr 1
        unfold sAdd
        rw [if_neg halb, List.erase_append_right _ halb, List.erase_cons_head,
            List.append_nil]
      · rw [r9 x hxa hxb, h2]
        show fmLookup x (adjInsert (adjInsert g._graph_structure a b) b a) = _
        rw [adjInsert_lookup_ne _ _ _ _ hxb, adjInsert_lookup_ne _ _ _ _ hxa]

/-- Graph whose clock is already at 5, so a round-trip with timestamp 3
does not advance it. -/
def roundtripOps : List Op :=
  [.addNode 1, .addNode 2, .addNode 3, .addNode 4, .addLink 3 4 5]

/-- Witness for the amended C6 theorem at a concrete graph. -/
theorem add_remove_link_roundtrip_witness :
    (((run roundtripOps).add_link 1 2 3).1.remove_link 1 2).1.num_links
      = (run roundtripOps).num_links :=
  (add_remove_link_roundtrip (run roundtripOps) 1 2 3 (by decide) (by decide)
    (by decide) (by decide) (by decide) (by decide) (by decide)).1

/-- Graph with clock 0 holding the edge `{1, 2}` at timestamp 100
(`setCurrentTime 0` legitimately resets the clock after the insert). -/
def updBackOps : List Op :=
  [.addNode 1, .addNode 2, .addLink 1 2 100, .setCurrentTime 0]

/-- Clock-motion witness: updating the stored timestamp 100 down to 50
succeeds and stores 50, but moves `current_time` from 0 to 50, so the
clock after the call differs from the clock before it. -/
theorem update_link_advances_clock_cex :
    (run updBackOps).current_time = 0 ∧
    (run updBackOps).check_link 1 2 = 100 ∧
    ((run updBackOps).update_link 1 2 50).2 = true ∧
    ((run updBackOps).update_link 1 2 50).1.check_link 1 2 = 50 ∧
    ((run updBackOps).update_link 1 2 50).1.current_time = 50 ∧
    ((run updBackOps).update_link 1 2 50).1.current_time
      ≠ (run updBackOps).current_time := by
  refine ⟨by decide, by decide, by decide, by decide, by decide, by decide⟩

/-- Claim C7, amended: updating an existing edge to a smaller nonnegative
timestamp succeeds at the storage level — it returns `true` and the edge's
stored timestamp becomes `t` — and `current_time` never moves backward
(though it may move forward when `t` exceeds the clock). -/
theorem update_link_store_and_clock (g : TimeWindowGraph) (a b : ℕ)
    (t : Int) (hwf : GWF g) (hpos : 0 ≤ g.check_link a b) (ht : 0 ≤ t)
    (hlt : t < g.check_link a b) (hwin : 0 < g.window_size) :
    (g.update_link a b t).2 = true ∧
    (g.update_link a b t).1.check_link a b = t ∧
    g.current_time ≤ (g.update_link a b t).1.current_time := by
  obtain ⟨hret, g1, hg1, hres, hgwf1, hcheck1, hnum1, hcur1, hgwfr⟩ :=
    update_link_spec g a b t hwf hpos ht
  refine ⟨hret, ?_, update_link_current_mono g a b t⟩
  have hpos1 : 0 ≤ g1.check_link a b := by
    rw [hcheck1]
    exact ht
  obtain ⟨ha1, hb1, hab1, hmem1, hval1⟩ := check_link_nonneg_spec g1 a b hpos1
  rw [hcheck1] at hval1
  have hadj1 : Adjacent g1 a b := hmem1
  have hadj1' : Adjacent g1 b a := gwf_adj_symm hgwf1 hadj1
  rw [hres]
  by_cases hadv : g1.current_time < t
  · rw [if_pos hadv]
    have hwin1 : g1.window_size = g.window_size := by rw [hg1]
    obtain ⟨hs1, hs2, hs3⟩ :=
      set_current_time_edge_survives g1 t a b t hgwf1 hadj1 hadj1' hval1
        (by rw [hwin1]; omega)
    exact check_link_of_adj _ a b t hab1 hs1 hs2 hs3
  · rw [if_neg hadv]
    exact hcheck1

/-- Witness for the amended C7 theorem at a concrete graph. -/
theorem update_link_store_and_clock_witness :
    ((run updBackOps).update_link 1 2 50).1.check_link 1 2 = 50 :=
  (update_link_store_and_clock (run updBackOps) 1 2 50 (by decide)
    (by decide) (by decide) (by decide) (by decide)).2.1

/-- Claim C8: `set_current_time` with a negative timestamp is a no-op —
the whole graph state (clock, counts, adjacency, queue) is unchanged. -/
theorem set_current_time_neg_noop (g : TimeWindowGraph) (t : Int)
    (ht : t < 0) : g.set_current_time t = g := by
  unfold set_current_time
  rw [if_neg (by omega)]

/-- Witness for C8 at a concrete graph and timestamp. -/
theorem set_current_time_neg_noop_witness :
    (run []).set_current_time (-1) = run [] :=
  set_current_time_neg_noop (run []) (-1) (by decide)

/-- Claim C9: on a well-formed graph the eviction loop finishes within
`num_links` iterations — any fuel of at least `num_links` computes the
same result, because each pass removes exactly one stored link and the
loop stops when none remain. -/
theorem evict_loop_bounded (g : TimeWindowGraph) (fuel : ℕ) (hwf : GWF g)
    (hfuel : g.num_links.toNat ≤ fuel) :
    _remove_old_links_aux fuel g
      = _remove_old_links_aux g.num_links.toNat g :=
  _remove_old_links_aux_stable g.num_links.toNat g fuel hwf (le_refl _) hfuel

/-- Witness for C9 at a concrete graph (4 stored links, fuel 7). -/
theorem evict_loop_bounded_witness :
    _remove_old_links_aux 7 (run staleEvictionOps)
      = _remove_old_links_aux (run staleEvictionOps).num_links.toNat
          (run staleEvictionOps) :=
  evict_loop_bounded (run staleEvictionOps) 7 (by decide) (by decide)

/-- Claim C10: after every finite sequence of queue operations the
backing array keeps capacity at least `heap_size + 2`, so `add`'s write
to slot `heap_size + 1` is in bounds. -/
theorem pq_capacity_invariant (ops : List (PQOp ℕ)) :
    (runPQ ops)._heap_size + 2 ≤ (runPQ ops)._array.length ∧
    (runPQ ops)._heap_size + 1 < (runPQ ops)._array.length := by
  have h := (runPQ_wf ops).2
  exact ⟨h, by omega⟩

end TimeWindowGraph

end TweetGraph
